import Mathlib

/-!
# Parzen density estimators and the cubic spline (PARZDENS.CPP, SPLINE.CPP)

Shallow embedding of `CubicSpline`, `ParzDens_1`, `ParzDens_2`, `ParzDens_3`.

Conventions of the embedding
* A C array (`double *x`) is a total function `ℕ → α`; its length travels separately, as in
  the source.  A store `a[i] = v` is `Function.update a i v`.
* `double` is an element of a linearly ordered field `α` (exact arithmetic).  The definitions are
  computable at `α = ℚ`; the theorems about `exp`, `sqrt` are stated at `α = ℝ`.
* The `extern` routines (`qsortds`, `qsortdsi`, `inverse_normal_cdf`) and the libm functions
  (`exp`, `sqrt`) are parameters of the definitions that call them.
* A counted `for` loop is a `List.foldl` of its body over the list of its index values; the
  `while` loop of `evaluate` is a recursion on `khi - klo`.
* An `int` count or index is a natural number (the loops run over `0 .. n-1`); `n_div` is an
  integer.  A freshly allocated array is the zero function; no cell is read before it is
  written.
-/

namespace DataMining

open MeasureTheory

variable {α : Type} [LinearOrderedField α]

/-! ## SPLINE.CPP -/

/-- The private data of `class CubicSpline`: `n`, `x`, `y`, `y2`. -/
structure CubicSpline (α : Type) where
  n : ℕ
  x : ℕ → α
  y : ℕ → α
  y2 : ℕ → α

/-- Body of the forward elimination loop of the constructor (SPLINE.CPP lines 56-61), on the
pair of work arrays `(y2, c)`. -/
def splineForwardStep (x y : ℕ → α) (s : (ℕ → α) × (ℕ → α)) (i : ℕ) : (ℕ → α) × (ℕ → α) :=
  let temp := (x i - x (i - 1)) / (x (i + 1) - x (i - 1))
  let p := temp * s.1 (i - 1) + 2
  let y2 := Function.update s.1 i ((temp - 1) / p)
  let c := Function.update s.2 i ((y (i + 1) - y i) / (x (i + 1) - x i))
  let c := Function.update c i (c i - (y i - y (i - 1)) / (x i - x (i - 1)))
  let c := Function.update c i ((6 * c i / (x (i + 1) - x (i - 1)) - temp * c (i - 1)) / p)
  (y2, c)

/-- Body of the back substitution loop (SPLINE.CPP line 66). -/
def splineBackStep (c : ℕ → α) (y2 : ℕ → α) (i : ℕ) : ℕ → α :=
  Function.update y2 i (y2 i * y2 (i + 1) + c i)

/-- The work arrays `(y2, c)` after `y2[0] = c[0] = 0.0` and the loop `for (i=1 ; i<n-1 ; i++)`. -/
def splineForward (n : ℕ) (x y : ℕ → α) : (ℕ → α) × (ℕ → α) :=
  (List.range' 1 (n - 2)).foldl (splineForwardStep x y)
    (Function.update (fun _ => 0) 0 0, Function.update (fun _ => 0) 0 0)

/-- The array `y2` after `y2[n-1] = 0.0` and the loop `for (i=n-2 ; i>=0 ; i--)`. -/
def splineBackward (n : ℕ) (s : (ℕ → α) × (ℕ → α)) : ℕ → α :=
  (List.range (n - 1)).reverse.foldl (splineBackStep s.2) (Function.update s.1 (n - 1) 0)

/-- `CubicSpline::CubicSpline ( int nin , double *xin , double *yin )`.
`qsortds first last x y` is the external sorter; it returns the two arrays it leaves behind. -/
def CubicSpline.new (qsortds : ℤ → ℤ → (ℕ → α) → (ℕ → α) → (ℕ → α) × (ℕ → α))
    (nin : ℕ) (xin yin : ℕ → α) : CubicSpline α :=
  let n := nin
  let xy := qsortds 0 ((n : ℤ) - 1) xin yin
  let x := xy.1
  let y := xy.2
  { n := n, x := x, y := y, y2 := splineBackward n (splineForward n x y) }

/-- The `while (khi > klo+1)` loop of `CubicSpline::evaluate`; returns the final `(klo, khi)`. -/
def bracket (x : ℕ → α) (xpt : α) (klo khi : ℕ) : ℕ × ℕ :=
  if khi > klo + 1 then
    if xpt < x ((khi + klo) / 2) then bracket x xpt klo ((khi + klo) / 2)
    else bracket x xpt ((khi + klo) / 2) khi
  else (klo, khi)
termination_by khi - klo
decreasing_by all_goals omega

/-- `double CubicSpline::evaluate ( double xpt )`. -/
def CubicSpline.evaluate (s : CubicSpline α) (xpt : α) : α :=
  if xpt < s.x 0 then s.y 0
  else if xpt > s.x (s.n - 1) then s.y (s.n - 1)
  else
    let kk := bracket s.x xpt 0 (s.n - 1)
    let klo := kk.1
    let khi := kk.2
    let dist := s.x khi - s.x klo + 1.e-60
    let a := (s.x khi - xpt) / dist
    let b := (xpt - s.x klo) / dist
    let aa := a * (a * a - 1)
    let bb := b * (b * b - 1)
    let val := (aa * s.y2 klo + bb * s.y2 khi) * dist * dist / 6
    a * s.y klo + b * s.y khi + val

/-! ## PARZDENS.CPP -/

/-- `#define PI 3.141592653589793` -/
def PI : α := 3.141592653589793

/-- First loop of the normalisation (`indices[i] = i ; d[i] = tset[i]`), on the pair of
arrays `(d, indices)`. -/
def normalizeInit (nd : ℕ) (tset : ℕ → α) : (ℕ → α) × (ℕ → ℕ) :=
  (List.range nd).foldl
    (fun s i => (Function.update s.1 i (tset i), Function.update s.2 i i))
    (fun _ => 0, fun _ => 0)

/-- Second loop of the normalisation:
`d[indices[i]] = inverse_normal_cdf ( (i + 1.0) / (nd + 1) )` for `i = 0 .. nd-1`. -/
def normalizeScatter (inverse_normal_cdf : α → α) (nd : ℕ) (d : ℕ → α) (indices : ℕ → ℕ) :
    ℕ → α :=
  (List.range nd).foldl
    (fun d i => Function.update d (indices i)
      (inverse_normal_cdf (((i : α) + 1) / ((nd + 1 : ℕ) : α))))
    d

/-- The block "Convert the data to a normal distribution" that every constructor runs on each
of its variables (PARZDENS.CPP lines 179-185, 285-299, 432-454).  `qsortdsi first last data slave`
is the external sorter; it returns the two arrays it leaves behind. -/
def normalize (inverse_normal_cdf : α → α)
    (qsortdsi : ℤ → ℤ → (ℕ → α) → (ℕ → ℕ) → (ℕ → α) × (ℕ → ℕ))
    (nd : ℕ) (tset : ℕ → α) : ℕ → α :=
  let s := normalizeInit nd tset
  let t := qsortdsi 0 ((nd : ℤ) - 1) s.1 s.2
  normalizeScatter inverse_normal_cdf nd t.1 t.2

/-- The data members of `class ParzDens_1`. -/
structure ParzDens_1 (α : Type) where
  low : α
  high : α
  nd : ℕ
  d : ℕ → α
  var : α
  factor : α
  spline : Option (CubicSpline α)

/-- The kernel sum loop `sum = 0.0 ; for (i=0 ; i<nd ; i++) { diff = x - d[i] ;
sum += exp ( -0.5 * diff * diff / var ) ; }` of `ParzDens_1`. -/
def kernelSum1 (exp : α → α) (nd : ℕ) (d : ℕ → α) (var : α) (x : α) : α :=
  (List.range nd).foldl (fun sum i => sum + exp (-0.5 * (x - d i) * (x - d i) / var)) 0

/-- The 1001 abscissas built by the `ParzDens_1` constructor (PARZDENS.CPP lines 202-215). -/
def grid1 (low high : α) : ℕ → α :=
  let xinc := (-1.5 - low) / 100
  let x := (List.range 100).foldl
    (fun (x : ℕ → α) (i : ℕ) => Function.update x i (low + (i : α) * xinc))
    (fun _ => 0)
  let xbot := x 99
  let xinc := (1.5 - xbot) / 801
  let x := (List.range 800).foldl
    (fun (x : ℕ → α) (i : ℕ) => Function.update x (i + 100) (xbot + ((i + 1 : ℕ) : α) * xinc)) x
  let xbot := x 899
  let xinc := (high - xbot) / 101
  (List.range 101).foldl
    (fun (x : ℕ → α) (i : ℕ) => Function.update x (i + 900) (xbot + ((i + 1 : ℕ) : α) * xinc)) x

/-- The 1001 ordinates `y[i] = factor * sum` (PARZDENS.CPP lines 217-224). -/
def gridValues1 (exp : α → α) (nd : ℕ) (d : ℕ → α) (var factor : α) (x : ℕ → α) : ℕ → α :=
  (List.range 1001).foldl
    (fun y i => Function.update y i (factor * kernelSum1 exp nd d var (x i)))
    (fun _ => 0)

/-- `ParzDens_1::ParzDens_1 ( int n_tset , double *tset , int n_div )`. -/
def ParzDens_1.new (exp sqrt inverse_normal_cdf : α → α)
    (qsortdsi : ℤ → ℤ → (ℕ → α) → (ℕ → ℕ) → (ℕ → α) × (ℕ → ℕ))
    (qsortds : ℤ → ℤ → (ℕ → α) → (ℕ → α) → (ℕ → α) × (ℕ → α))
    (n_tset : ℕ) (tset : ℕ → α) (n_div : ℤ) : ParzDens_1 α :=
  let nd := n_tset
  let d := normalize inverse_normal_cdf qsortdsi nd tset
  let std := 2 / (n_div : α)
  let var := std * std
  let high := 3 + 3 * std
  let low := -high
  let factor := 1 / ((nd : α) * sqrt (2 * PI * var))
  if nd ≤ 100 then
    { low := low, high := high, nd := nd, d := d, var := var, factor := factor, spline := none }
  else
    let x := grid1 low high
    let y := gridValues1 exp nd d var factor x
    { low := low, high := high, nd := nd, d := d, var := var, factor := factor,
      spline := some (CubicSpline.new qsortds 1001 x y) }

/-- `double ParzDens_1::density ( double x )`. -/
def ParzDens_1.density (exp : α → α) (p : ParzDens_1 α) (x : α) : α :=
  match p.spline with
  | some spline => spline.evaluate x
  | none => kernelSum1 exp p.nd p.d p.var x * p.factor

/-- `#define P2RES 200` -/
def P2RES : ℕ := 200

/-- The data members of `class ParzDens_2`; `B` is the type of the `Bilinear` object, whose
implementation is not part of the two source files. -/
structure ParzDens_2 (α B : Type) where
  nd : ℕ
  d0 : ℕ → α
  d1 : ℕ → α
  var0 : α
  var1 : α
  factor : α
  bilin : Option B

/-- The kernel sum loop of `ParzDens_2` (PARZDENS.CPP lines 398-403 and 365-370). -/
def kernelSum2 (exp : α → α) (nd : ℕ) (d0 d1 : ℕ → α) (var0 var1 : α) (x0 x1 : α) : α :=
  (List.range nd).foldl
    (fun sum i => sum + exp (-0.5 * ((x0 - d0 i) * (x0 - d0 i) / var0
      + (x1 - d1 i) * (x1 - d1 i) / var1))) 0

/-- One axis of the `ParzDens_2` grid (PARZDENS.CPP lines 328-343, and again 346-361). -/
def grid2 (xlow xhigh : α) : ℕ → α :=
  let k0 := ⌊(0.1 : ℚ) * P2RES⌋.toNat
  let xinc := (-1.5 - xlow) / (k0 : α)
  let x := (List.range k0).foldl
    (fun (x : ℕ → α) (i : ℕ) => Function.update x i (xlow + (i : α) * xinc))
    (fun _ => 0)
  let k1 := ⌊(0.8 : ℚ) * P2RES⌋.toNat
  let xbot := x (k0 - 1)
  let xinc := (1.5 - xbot) / ((k1 + 1 : ℕ) : α)
  let x := (List.range k1).foldl
    (fun (x : ℕ → α) (i : ℕ) => Function.update x (i + k0) (xbot + ((i + 1 : ℕ) : α) * xinc)) x
  let xbot := x (k0 + k1 - 1)
  let k2 := P2RES - k0 - k1
  let xinc := (xhigh - xbot) / (k2 : α)
  (List.range k2).foldl
    (fun (x : ℕ → α) (i : ℕ) => Function.update x (i + k0 + k1) (xbot + ((i + 1 : ℕ) : α) * xinc)) x

/-- The `P2RES * P2RES` ordinates `z[i*P2RES+j] = factor * sum` (PARZDENS.CPP lines 363-373). -/
def gridValues2 (exp : α → α) (nd : ℕ) (d0 d1 : ℕ → α) (var0 var1 factor : α)
    (x y : ℕ → α) : ℕ → α :=
  (List.range P2RES).foldl
    (fun z i => (List.range P2RES).foldl
      (fun z j => Function.update z (i * P2RES + j)
        (factor * kernelSum2 exp nd d0 d1 var0 var1 (x i) (y j))) z)
    (fun _ => 0)

/-- `ParzDens_2::ParzDens_2 ( int n_tset , double *tset0 , double *tset1 , int n_div )`.
`mallocOk` says whether the three grid allocations succeeded; `newBilinear` is the constructor
of the external class `Bilinear`. -/
def ParzDens_2.new {B : Type} (exp sqrt inverse_normal_cdf : α → α)
    (qsortdsi : ℤ → ℤ → (ℕ → α) → (ℕ → ℕ) → (ℕ → α) × (ℕ → ℕ))
    (newBilinear : ℕ → (ℕ → α) → ℕ → (ℕ → α) → (ℕ → α) → ℤ → B) (mallocOk : Bool)
    (n_tset : ℕ) (tset0 tset1 : ℕ → α) (n_div : ℤ) : ParzDens_2 α B :=
  let nd := n_tset
  let d0 := normalize inverse_normal_cdf qsortdsi nd tset0
  let d1 := normalize inverse_normal_cdf qsortdsi nd tset1
  let std := 2 / (n_div : α)
  let var1 := std * std
  let var0 := var1
  let yhigh := 3 + 2 * std
  let xhigh := yhigh
  let ylow := -xhigh
  let xlow := ylow
  let factor := 1 / ((nd : α) * 2 * PI * sqrt (var0 * var1))
  if nd ≤ 100 then
    { nd := nd, d0 := d0, d1 := d1, var0 := var0, var1 := var1, factor := factor, bilin := none }
  else if !mallocOk then
    { nd := nd, d0 := d0, d1 := d1, var0 := var0, var1 := var1, factor := factor, bilin := none }
  else
    let x := grid2 xlow xhigh
    let y := grid2 ylow yhigh
    let z := gridValues2 exp nd d0 d1 var0 var1 factor x y
    { nd := nd, d0 := d0, d1 := d1, var0 := var0, var1 := var1, factor := factor,
      bilin := some (newBilinear P2RES x P2RES y z 1) }

/-- `double ParzDens_2::density ( double x0 , double x1 )`; `evaluateBilinear` is
`Bilinear::evaluate`. -/
def ParzDens_2.density {B : Type} (exp : α → α) (evaluateBilinear : B → α → α → α)
    (p : ParzDens_2 α B) (x0 x1 : α) : α :=
  match p.bilin with
  | some bilin => evaluateBilinear bilin x0 x1
  | none => kernelSum2 exp p.nd p.d0 p.d1 p.var0 p.var1 x0 x1 * p.factor

/-- The data members of `class ParzDens_3`. -/
structure ParzDens_3 (α : Type) where
  nd : ℕ
  d0 : ℕ → α
  d1 : ℕ → α
  d2 : ℕ → α
  var0 : α
  var1 : α
  var2 : α
  factor : α

/-- `ParzDens_3::ParzDens_3 ( int n_tset , double *tset0 , double *tset1 , double *tset2 ,
int n_div )`. -/
def ParzDens_3.new (sqrt inverse_normal_cdf : α → α)
    (qsortdsi : ℤ → ℤ → (ℕ → α) → (ℕ → ℕ) → (ℕ → α) × (ℕ → ℕ))
    (n_tset : ℕ) (tset0 tset1 tset2 : ℕ → α) (n_div : ℤ) : ParzDens_3 α :=
  let nd := n_tset
  let d0 := normalize inverse_normal_cdf qsortdsi nd tset0
  let d1 := normalize inverse_normal_cdf qsortdsi nd tset1
  let d2 := normalize inverse_normal_cdf qsortdsi nd tset2
  let std := 2 / (n_div : α)
  let var2 := std * std
  let var1 := var2
  let var0 := var1
  let factor := 1 / ((nd : α) * 2 * PI * sqrt (2 * PI) * sqrt (var0 * var1 * var2))
  { nd := nd, d0 := d0, d1 := d1, d2 := d2, var0 := var0, var1 := var1, var2 := var2,
    factor := factor }

/-- `double ParzDens_3::density ( double x0 , double x1 , double x2 )`. -/
def ParzDens_3.density (exp : α → α) (p : ParzDens_3 α) (x0 x1 x2 : α) : α :=
  (List.range p.nd).foldl
    (fun sum i => sum + exp (-0.5 * ((x0 - p.d0 i) * (x0 - p.d0 i) / p.var0
      + (x1 - p.d1 i) * (x1 - p.d1 i) / p.var1 + (x2 - p.d2 i) * (x2 - p.d2 i) / p.var2))) 0
    * p.factor

/-! ## Definitions used to state the properties -/

/-- Elimination coefficient `y2[i]` left by the forward loop, as a recurrence. -/
def fwdU (x : ℕ → α) : ℕ → α
  | 0 => 0
  | i + 1 =>
    ((x (i + 1) - x i) / (x (i + 2) - x i) - 1) /
      ((x (i + 1) - x i) / (x (i + 2) - x i) * fwdU x i + 2)

/-- Right-hand side `c[i]` left by the forward loop, as a recurrence. -/
def fwdC (x y : ℕ → α) : ℕ → α
  | 0 => 0
  | i + 1 =>
    (6 * ((y (i + 2) - y (i + 1)) / (x (i + 2) - x (i + 1)) - (y (i + 1) - y i) / (x (i + 1) - x i))
        / (x (i + 2) - x i) - (x (i + 1) - x i) / (x (i + 2) - x i) * fwdC x y i) /
      ((x (i + 1) - x i) / (x (i + 2) - x i) * fwdU x i + 2)

/-- Nodes `x[0] < x[1] < ... < x[n-1]`. -/
def StrictIncr (n : ℕ) (x : ℕ → α) : Prop := ∀ i, i + 1 < n → x i < x (i + 1)

/-- Contract of the external sorters `qsortds` / `qsortdsi` on the first `n` cells: the pairs
`(data[i], slave[i])` left behind are a rearrangement of the pairs handed in, and the data
values are ascending. -/
def SortedWithCompanion {β : Type} (n : ℕ) (data : ℕ → α) (slave : ℕ → β)
    (out : (ℕ → α) × (ℕ → β)) : Prop :=
  ((List.range n).map fun i => (out.1 i, out.2 i)).Perm
      ((List.range n).map fun i => (data i, slave i)) ∧
    ∀ i, i + 1 < n → out.1 i ≤ out.1 (i + 1)

/-- Modelled from the spec: the external sorter-with-companion (`qsortds`, `qsortdsi`), which
"sorts an array of reals ascending while permuting a parallel companion array identically".
The cells `first .. last` are sorted by a stable insertion sort of the pairs; the other cells are
left alone. -/
def sortWithCompanion {β : Type} (first last : ℤ) (data : ℕ → α) (slave : ℕ → β) :
    (ℕ → α) × (ℕ → β) :=
  let l := List.insertionSort (fun p q : α × β => p.1 ≤ q.1)
    ((List.range (last + 1 - first).toNat).map
      fun i => (data (first.toNat + i), slave (first.toNat + i)))
  (fun j => ((l.get? (j - first.toNat)).map Prod.fst).getD (data j),
   fun j => ((l.get? (j - first.toNat)).map Prod.snd).getD (slave j))

/-- Three nodes `(0,0), (1,1), (2,4)`. -/
def parabolaSpline : CubicSpline ℚ :=
  CubicSpline.new sortWithCompanion 3 (fun i => (i : ℚ)) (fun i => (i : ℚ) ^ 2)

/-- Three collinear nodes `(0,0), (1,1), (2,2)`. -/
def lineSpline : CubicSpline ℚ :=
  CubicSpline.new sortWithCompanion 3 (fun i => (i : ℚ)) (fun i => (i : ℚ))

/-- Three collinear nodes spaced by the guard value: `(0,0), (1e-60,1), (2e-60,2)`. -/
def tinySpline : CubicSpline ℚ :=
  CubicSpline.new sortWithCompanion 3 (fun i => (i : ℚ) * 1.e-60) (fun i => (i : ℚ))

/-- Three nodes handed in out of order: `(2,20), (0,0), (1,10)`. -/
def unsortedSpline : CubicSpline ℚ :=
  CubicSpline.new sortWithCompanion 3 (fun i => [2, 0, 1].getD i 0) (fun i => [20, 0, 10].getD i 0)

/-- The arrays `(d, indices)` right after the call `qsortdsi ( 0 , nd-1 , d , indices )`. -/
def sortedOrder (qsortdsi : ℤ → ℤ → (ℕ → α) → (ℕ → ℕ) → (ℕ → α) × (ℕ → ℕ))
    (nd : ℕ) (tset : ℕ → α) : (ℕ → α) × (ℕ → ℕ) :=
  qsortdsi 0 ((nd : ℤ) - 1) (normalizeInit nd tset).1 (normalizeInit nd tset).2

/-- The sample `[10, 20, 30, 40, 50]` as an array. -/
def sample5 : ℕ → α := fun i => [10, 20, 30, 40, 50].getD i 0

/-- Density of the standard normal distribution. -/
noncomputable def normalPdf (t : ℝ) : ℝ := Real.exp (-(1 / 2) * t ^ 2) / Real.sqrt (2 * Real.pi)

/-- Cumulative distribution function of the standard normal distribution, written from its
value 1/2 at 0. -/
noncomputable def normalCdf (x : ℝ) : ℝ := 1 / 2 + ∫ t in (0 : ℝ)..x, normalPdf t

/-- Modelled from the spec: the external `inverse_normal_cdf`, the standard-normal quantile
function, which for `p` in (0,1) "returns the value x such that Φ(x) = p". -/
noncomputable def normalQuantile (p : ℝ) : ℝ := Function.invFun normalCdf p

/-- The argument `(i + 1.0) / (nd + 1)` that the normalisation loop hands to
`inverse_normal_cdf` at loop index `i` (PARZDENS.CPP lines 185, 291, 299, 438, 446, 454). -/
def quantileArg (nd i : ℕ) : α := ((i : α) + 1) / ((nd + 1 : ℕ) : α)

/-- The work arrays `(y2, c)` of the constructor when the elimination loop
`for (i=1 ; i<n-1 ; i++)` reaches index `i`: the steps `1 .. i-1` have run. -/
def splineForwardAt (x y : ℕ → α) (i : ℕ) : (ℕ → α) × (ℕ → α) :=
  (List.range' 1 (i - 1)).foldl (splineForwardStep x y)
    (Function.update (fun _ => 0) 0 0, Function.update (fun _ => 0) 0 0)

/-- One pass through the body of the `while (khi > klo+1)` loop of `CubicSpline::evaluate`
(SPLINE.CPP lines 93-97), on the pair `(klo, khi)`. -/
def bracketStep (x : ℕ → α) (xpt : α) (s : ℕ × ℕ) : ℕ × ℕ :=
  if xpt < x ((s.2 + s.1) / 2) then (s.1, (s.2 + s.1) / 2) else ((s.2 + s.1) / 2, s.2)

/-- The local variable `dist = x[khi] - x[klo] + 1.e-60` of `CubicSpline::evaluate`
(SPLINE.CPP line 100), for a query that reaches the bisection. -/
def CubicSpline.dist (s : CubicSpline α) (xpt : α) : α :=
  s.x (bracket s.x xpt 0 (s.n - 1)).2 - s.x (bracket s.x xpt 0 (s.n - 1)).1 + 1.e-60

/-- The list `σ 0, ..., σ (n-1)` is a rearrangement of `0, ..., n-1`: `σ` permutes the
indices below `n`. -/
def IndexPerm (n : ℕ) (σ : ℕ → ℕ) : Prop := ((List.range n).map σ).Perm (List.range n)

/-- The first `n` cells of `x` hold pairwise distinct values. -/
def PairwiseDistinct {β : Type} (n : ℕ) (x : ℕ → β) : Prop :=
  ∀ i j, i < n → j < n → x i = x j → i = j

/-- Three nodes of which two share the abscissa 1, handed in out of order:
`(1,5), (0,0), (1,7)`. -/
def dupSpline : CubicSpline ℚ :=
  CubicSpline.new sortWithCompanion 3 (fun i => [1, 0, 1].getD i 0) (fun i => [5, 0, 7].getD i 0)

/-! ## The sorter contract -/

theorem StrictIncr.lt {n : ℕ} {x : ℕ → α} (h : StrictIncr n x) :
    ∀ i j, i < j → j < n → x i < x j := by
  intro i j hij
  induction j with
  | zero => omega
  | succ j ih =>
    intro hj
    rcases Nat.lt_or_ge i j with h1 | h1
    · exact lt_trans (ih h1 (by omega)) (h j hj)
    · have : i = j := by omega
      subst this
      exact h i hj

theorem StrictIncr.le {n : ℕ} {x : ℕ → α} (h : StrictIncr n x) (i j : ℕ) (hij : i ≤ j)
    (hj : j < n) : x i ≤ x j := by
  rcases Nat.lt_or_ge i j with h1 | h1
  · exact le_of_lt (h.lt i j h1 hj)
  · have : i = j := by omega
    subst this
    exact le_refl _

theorem SortedWithCompanion.mono {β : Type} {n : ℕ} {data : ℕ → α} {slave : ℕ → β}
    {out : (ℕ → α) × (ℕ → β)} (h : SortedWithCompanion n data slave out) :
    ∀ i j, i ≤ j → j < n → out.1 i ≤ out.1 j := by
  intro i j hij
  induction j with
  | zero =>
    intro _
    have : i = 0 := by omega
    subst this
    exact le_refl _
  | succ j ih =>
    intro hj
    rcases Nat.lt_or_ge i (j + 1) with h1 | h1
    · exact le_trans (ih (by omega) (by omega)) (h.2 j hj)
    · have : i = j + 1 := by omega
      subst this
      exact le_refl _

theorem SortedWithCompanion.out_mem {β : Type} {n : ℕ} {data : ℕ → α} {slave : ℕ → β}
    {out : (ℕ → α) × (ℕ → β)} (h : SortedWithCompanion n data slave out) (k : ℕ) (hk : k < n) :
    ∃ j, j < n ∧ out.1 k = data j ∧ out.2 k = slave j := by
  have hm : (out.1 k, out.2 k) ∈ (List.range n).map fun i => (out.1 i, out.2 i) :=
    List.mem_map.mpr ⟨k, List.mem_range.mpr hk, rfl⟩
  obtain ⟨j, hj, e⟩ := List.mem_map.mp (h.1.mem_iff.mp hm)
  refine ⟨j, List.mem_range.mp hj, ?_, ?_⟩
  · exact (congrArg Prod.fst e).symm
  · exact (congrArg Prod.snd e).symm

theorem SortedWithCompanion.in_mem {β : Type} {n : ℕ} {data : ℕ → α} {slave : ℕ → β}
    {out : (ℕ → α) × (ℕ → β)} (h : SortedWithCompanion n data slave out) (j : ℕ) (hj : j < n) :
    ∃ k, k < n ∧ out.1 k = data j ∧ out.2 k = slave j := by
  have hm : (data j, slave j) ∈ (List.range n).map fun i => (data i, slave i) :=
    List.mem_map.mpr ⟨j, List.mem_range.mpr hj, rfl⟩
  obtain ⟨k, hk, e⟩ := List.mem_map.mp (h.1.mem_iff.mpr hm)
  refine ⟨k, List.mem_range.mp hk, ?_, ?_⟩
  · exact congrArg Prod.fst e
  · exact congrArg Prod.snd e

/-- When the companion array is injective on the first `n` cells, so is the permuted companion. -/
theorem SortedWithCompanion.slave_injective {β : Type} {n : ℕ} {data : ℕ → α} {slave : ℕ → β}
    {out : (ℕ → α) × (ℕ → β)} (h : SortedWithCompanion n data slave out)
    (hs : ∀ i j, i < n → j < n → slave i = slave j → i = j) :
    ∀ i j, i < n → j < n → out.2 i = out.2 j → i = j := by
  have hp : ((List.range n).map out.2).Perm ((List.range n).map slave) := by
    have := h.1.map Prod.snd
    simpa [List.map_map, Function.comp_def] using this
  have hnd : ((List.range n).map slave).Nodup := by
    refine List.Nodup.map_on ?_ (List.nodup_range n)
    intro a ha b hb e
    exact hs a b (List.mem_range.mp ha) (List.mem_range.mp hb) e
  have hnd' : ((List.range n).map out.2).Nodup := hp.nodup_iff.mpr hnd
  intro i j hi hj e
  exact List.inj_on_of_nodup_map hnd' (List.mem_range.mpr hi) (List.mem_range.mpr hj) e

/-- Nodes handed in with strictly increasing data come back unchanged. -/
theorem SortedWithCompanion.eq_of_strictIncr {β : Type} {n : ℕ} {data : ℕ → α} {slave : ℕ → β}
    {out : (ℕ → α) × (ℕ → β)} (h : SortedWithCompanion n data slave out)
    (hd : StrictIncr n data) : ∀ k, k < n → out.1 k = data k ∧ out.2 k = slave k := by
  have hin : ((List.range n).map fun i => (data i, slave i)).Sorted (fun p q => p.1 < q.1) := by
    rw [List.Sorted, List.pairwise_map]
    refine List.Pairwise.imp_of_mem ?_ (List.pairwise_lt_range n)
    intro a b _ hb hab
    exact hd.lt a b hab (List.mem_range.mp hb)
  have hfst : ((List.range n).map out.1).Perm ((List.range n).map data) := by
    have := h.1.map Prod.fst
    simpa [List.map_map, Function.comp_def] using this
  have hnd : ((List.range n).map out.1).Nodup := by
    refine hfst.nodup_iff.mpr ?_
    have : ((List.range n).map data).Sorted (· < ·) := by
      rw [List.Sorted, List.pairwise_map]
      refine List.Pairwise.imp_of_mem ?_ (List.pairwise_lt_range n)
      intro a b _ hb hab
      exact hd.lt a b hab (List.mem_range.mp hb)
    exact this.nodup
  have hout : ((List.range n).map fun i => (out.1 i, out.2 i)).Sorted (fun p q => p.1 < q.1) := by
    rw [List.Sorted, List.pairwise_map]
    refine List.Pairwise.imp_of_mem ?_ (List.pairwise_lt_range n)
    intro a b ha hb hab
    have hle := h.mono a b (le_of_lt hab) (List.mem_range.mp hb)
    refine lt_of_le_of_ne hle ?_
    intro e
    have := List.inj_on_of_nodup_map hnd ha hb e
    omega
  haveI : IsAntisymm (α × β) (fun p q => p.1 < q.1) :=
    ⟨fun a b hab hba => absurd hab (not_lt.mpr (le_of_lt hba))⟩
  have heq := List.eq_of_perm_of_sorted h.1 hout hin
  intro k hk
  have hk' := List.map_inj_left.mp heq k (List.mem_range.mpr hk)
  exact ⟨congrArg Prod.fst hk', congrArg Prod.snd hk'⟩

theorem sortWithCompanion_spec {β : Type} (n : ℕ) (data : ℕ → α) (slave : ℕ → β) :
    SortedWithCompanion n data slave (sortWithCompanion 0 ((n : ℤ) - 1) data slave) := by
  have hn : ((n : ℤ) - 1 + 1 - 0).toNat = n := by simp
  set l := List.insertionSort (fun p q : α × β => p.1 ≤ q.1)
    ((List.range n).map fun i => (data i, slave i)) with hl
  have hlen : l.length = n := by simp [hl, List.length_insertionSort]
  have hperm : l.Perm ((List.range n).map fun i => (data i, slave i)) :=
    List.perm_insertionSort _ _
  haveI : IsTotal (α × β) (fun p q => p.1 ≤ q.1) := ⟨fun a b => le_total a.1 b.1⟩
  haveI : IsTrans (α × β) (fun p q => p.1 ≤ q.1) := ⟨fun a b c h1 h2 => le_trans h1 h2⟩
  have hsorted : l.Sorted (fun p q => p.1 ≤ q.1) := List.sorted_insertionSort _ _
  have hout1 : ∀ j (hj : j < n), (sortWithCompanion 0 ((n : ℤ) - 1) data slave).1 j
      = (l.get ⟨j, by omega⟩).1 := by
    intro j hj
    simp only [sortWithCompanion, hn, Int.toNat_zero, Nat.zero_add, Nat.sub_zero]
    rw [← hl, List.get?_eq_get (by omega)]
    rfl
  have hout2 : ∀ j (hj : j < n), (sortWithCompanion 0 ((n : ℤ) - 1) data slave).2 j
      = (l.get ⟨j, by omega⟩).2 := by
    intro j hj
    simp only [sortWithCompanion, hn, Int.toNat_zero, Nat.zero_add, Nat.sub_zero]
    rw [← hl, List.get?_eq_get (by omega)]
    rfl
  have hmap : ((List.range n).map fun i =>
      ((sortWithCompanion 0 ((n : ℤ) - 1) data slave).1 i,
       (sortWithCompanion 0 ((n : ℤ) - 1) data slave).2 i)) = l := by
    apply List.ext_get
    · simp [hlen]
    · intro k h1 h2
      have hk : k < n := by omega
      simp only [List.get_eq_getElem, List.getElem_map, List.getElem_range]
      rw [hout1 k hk, hout2 k hk]
      rfl
  refine ⟨by rw [hmap]; exact hperm, ?_⟩
  intro i hi
  rw [hout1 i (by omega), hout1 (i + 1) hi]
  exact List.Sorted.rel_get_of_lt hsorted (by simp [Fin.lt_def])

theorem natNodes_strictIncr : StrictIncr 3 (fun i : ℕ => (i : ℚ)) := by
  intro i _
  simp

theorem parabolaSpline_nodes (i : ℕ) (hi : i < 3) :
    parabolaSpline.x i = (i : ℚ) ∧ parabolaSpline.y i = (i : ℚ) ^ 2 :=
  (sortWithCompanion_spec 3 (fun i : ℕ => (i : ℚ)) (fun i : ℕ => (i : ℚ) ^ 2)).eq_of_strictIncr
    natNodes_strictIncr i hi

theorem lineSpline_nodes (i : ℕ) (hi : i < 3) :
    lineSpline.x i = (i : ℚ) ∧ lineSpline.y i = (i : ℚ) :=
  (sortWithCompanion_spec 3 (fun i : ℕ => (i : ℚ)) (fun i : ℕ => (i : ℚ))).eq_of_strictIncr
    natNodes_strictIncr i hi

theorem parabolaSpline_strictIncr : StrictIncr 3 parabolaSpline.x := by
  intro i hi
  rw [(parabolaSpline_nodes i (by omega)).1, (parabolaSpline_nodes (i + 1) hi).1]
  push_cast
  linarith

theorem lineSpline_strictIncr : StrictIncr 3 lineSpline.x := by
  intro i hi
  rw [(lineSpline_nodes i (by omega)).1, (lineSpline_nodes (i + 1) hi).1]
  push_cast
  linarith

theorem lineSpline_line (i : ℕ) (hi : i < 3) : lineSpline.y i = 1 * lineSpline.x i + 0 := by
  rw [(lineSpline_nodes i hi).1, (lineSpline_nodes i hi).2]
  ring

/-! ## CubicSpline: the constructor -/
theorem forward_foldl (x y : ℕ → α) (m : ℕ) :
    ∀ j, j ≤ m →
      ((List.range' 1 m).foldl (splineForwardStep x y)
        (Function.update (fun _ => 0) 0 0, Function.update (fun _ => 0) 0 0)).1 j = fwdU x j ∧
      ((List.range' 1 m).foldl (splineForwardStep x y)
        (Function.update (fun _ => 0) 0 0, Function.update (fun _ => 0) 0 0)).2 j = fwdC x y j := by
  induction m with
  | zero =>
    intro j hj
    have : j = 0 := by omega
    subst this
    simp [fwdU, fwdC]
  | succ m ih =>
    intro j hj
    rw [List.range'_1_concat, List.foldl_append, Nat.add_comm 1 m]
    simp only [List.foldl_cons, List.foldl_nil]
    rcases Nat.lt_or_ge j (m + 1) with h | h
    · have hne : j ≠ m + 1 := by omega
      obtain ⟨h1, h2⟩ := ih j (by omega)
      constructor
      · simp only [splineForwardStep, Function.update_noteq hne]
        exact h1
      · simp only [splineForwardStep, Function.update_noteq hne]
        exact h2
    · have hj' : j = m + 1 := by omega
      subst hj'
      obtain ⟨h1, h2⟩ := ih m (le_refl m)
      constructor
      · simp only [splineForwardStep, Function.update_same, Nat.add_one_sub_one, h1, fwdU]
      · simp only [splineForwardStep, Function.update_same, Nat.add_one_sub_one, h1, fwdC,
          Function.update_noteq (show m ≠ m + 1 by omega), h2]

theorem splineForward_fst (n : ℕ) (x y : ℕ → α) (j : ℕ) (hj : j ≤ n - 2) :
    (splineForward n x y).1 j = fwdU x j := (forward_foldl x y (n - 2) j hj).1

theorem splineForward_snd (n : ℕ) (x y : ℕ → α) (j : ℕ) (hj : j ≤ n - 2) :
    (splineForward n x y).2 j = fwdC x y j := (forward_foldl x y (n - 2) j hj).2

theorem backward_foldl (c : ℕ → α) (m : ℕ) :
    ∀ a : ℕ → α,
      (∀ j, m ≤ j → (List.range m).reverse.foldl (splineBackStep c) a j = a j) ∧
      (∀ j, j < m → (List.range m).reverse.foldl (splineBackStep c) a j =
        a j * (List.range m).reverse.foldl (splineBackStep c) a (j + 1) + c j) := by
  induction m with
  | zero => intro a; simp
  | succ m ih =>
    intro a
    rw [List.range_succ, List.reverse_append]
    simp only [List.reverse_cons, List.reverse_nil, List.nil_append, List.singleton_append,
      List.foldl_cons]
    obtain ⟨f1, f2⟩ := ih (splineBackStep c a m)
    constructor
    · intro j hj
      rw [f1 j (by omega)]
      exact Function.update_noteq (by omega) _ _
    · intro j hj
      rcases Nat.lt_or_ge j m with h | h
      · rw [f2 j h, splineBackStep, Function.update_noteq (by omega)]
      · have : j = m := by omega
        subst this
        rw [f1 j (le_refl j), f1 (j + 1) (by omega)]
        simp [splineBackStep, Function.update_noteq]

/-- The ratio `temp` of the elimination loop lies in `(0, 1)`. -/
theorem temp_bounds {a b c : α} (hab : a < b) (hbc : b < c) :
    0 < (b - a) / (c - a) ∧ (b - a) / (c - a) < 1 := by
  have h1 : 0 < b - a := sub_pos.mpr hab
  have h2 : 0 < c - a := sub_pos.mpr (lt_trans hab hbc)
  refine ⟨div_pos h1 h2, ?_⟩
  rw [div_lt_one h2]
  linarith

/-- One elimination step keeps the coefficient in `(-1, 0]` and the pivot in `(1, 2]`. -/
theorem pivot_step {t u : α} (ht0 : 0 < t) (ht1 : t < 1) (hu0 : -1 < u) (hu1 : u ≤ 0) :
    1 < t * u + 2 ∧ t * u + 2 ≤ 2 ∧ -1 < (t - 1) / (t * u + 2) ∧ (t - 1) / (t * u + 2) ≤ 0 := by
  have h1 : 1 < t * u + 2 := by nlinarith
  have h2 : t * u + 2 ≤ 2 := by nlinarith
  have hp : 0 < t * u + 2 := by linarith
  refine ⟨h1, h2, ?_, ?_⟩
  · rw [lt_div_iff₀ hp]
    nlinarith
  · exact div_nonpos_of_nonpos_of_nonneg (by linarith) (le_of_lt hp)

theorem fwdU_bounds {n : ℕ} {x : ℕ → α} (hx : StrictIncr n x) :
    ∀ i, i + 1 < n → -1 < fwdU x i ∧ fwdU x i ≤ 0 := by
  intro i
  induction i with
  | zero => intro _; simp [fwdU]
  | succ i ih =>
    intro hi
    obtain ⟨h1, h2⟩ := ih (by omega)
    obtain ⟨t0, t1⟩ := temp_bounds (hx i (by omega)) (hx (i + 1) hi)
    obtain ⟨_, _, h3, h4⟩ := pivot_step t0 t1 h1 h2
    exact ⟨h3, h4⟩

theorem pivot_bounds {n : ℕ} {x : ℕ → α} (hx : StrictIncr n x) (i : ℕ) (hi : i + 2 < n) :
    1 < (x (i + 1) - x i) / (x (i + 2) - x i) * fwdU x i + 2 ∧
    (x (i + 1) - x i) / (x (i + 2) - x i) * fwdU x i + 2 ≤ 2 := by
  obtain ⟨h1, h2⟩ := fwdU_bounds hx i (by omega)
  obtain ⟨t0, t1⟩ := temp_bounds (hx i (by omega)) (hx (i + 1) hi)
  obtain ⟨h3, h4, _, _⟩ := pivot_step t0 t1 h1 h2
  exact ⟨h3, h4⟩

/-- Algebra of one row of the tridiagonal system, in the variables of the elimination loop:
`S = x[i+1] - x[i-1]`, `t = temp`, `D` the difference of slopes. -/
theorem tridiag_row_aux {S t D u c m1 m2 : α} (hS : S ≠ 0) (hp : t * u + 2 ≠ 0)
    (e1 : m1 = (t - 1) / (t * u + 2) * m2 + (6 * D / S - t * c) / (t * u + 2)) :
    t * S / 6 * (u * m1 + c) + S / 3 * m1 + (1 - t) * S / 6 * m2 = D := by
  have key : (t * u + 2) * m1 = (t - 1) * m2 + (6 * D / S - t * c) := by
    rw [e1]
    field_simp
    ring
  have hX : 6 * D / S * S = 6 * D := by field_simp
  linear_combination (S / 6) * key + (1 / 6) * hX

theorem tridiag_row {h0 h1 D u c u' c' m0 m1 m2 : α} (hh0 : 0 < h0) (hh1 : 0 < h1)
    (hp : h0 / (h0 + h1) * u + 2 ≠ 0)
    (hu : u' = (h0 / (h0 + h1) - 1) / (h0 / (h0 + h1) * u + 2))
    (hc : c' = (6 * D / (h0 + h1) - h0 / (h0 + h1) * c) / (h0 / (h0 + h1) * u + 2))
    (e0 : m0 = u * m1 + c) (e1 : m1 = u' * m2 + c') :
    h0 / 6 * m0 + (h0 + h1) / 3 * m1 + h1 / 6 * m2 = D := by
  have hs : h0 + h1 ≠ 0 := by positivity
  have ht : h0 / (h0 + h1) * (h0 + h1) = h0 := by field_simp
  have ht' : (1 - h0 / (h0 + h1)) * (h0 + h1) = h1 := by field_simp
  have := @tridiag_row_aux α _ (h0 + h1) (h0 / (h0 + h1)) D u c m1 m2 hs hp
    (by rw [e1, hu, hc])
  rw [ht, ht'] at this
  rw [e0]
  exact this

theorem splineBackward_last (n : ℕ) (s : (ℕ → α) × (ℕ → α)) : splineBackward n s (n - 1) = 0 := by
  unfold splineBackward
  rw [(backward_foldl s.2 (n - 1) _).1 (n - 1) (le_refl _)]
  exact Function.update_same _ _ _

theorem splineBackward_rec (n : ℕ) (s : (ℕ → α) × (ℕ → α)) (j : ℕ) (hj : j < n - 1) :
    splineBackward n s j = s.1 j * splineBackward n s (j + 1) + s.2 j := by
  unfold splineBackward
  rw [(backward_foldl s.2 (n - 1) _).2 j hj, Function.update_noteq (by omega)]

theorem splineBackward_first (n : ℕ) (x y : ℕ → α) :
    splineBackward n (splineForward n x y) 0 = 0 := by
  rcases Nat.eq_zero_or_pos (n - 1) with h | h
  · have := splineBackward_last n (splineForward n x y)
    rwa [h] at this
  · rw [splineBackward_rec n _ 0 h, splineForward_fst n x y 0 (Nat.zero_le _),
      splineForward_snd n x y 0 (Nat.zero_le _)]
    simp [fwdU, fwdC]

/-- Interior rows of the natural-spline system hold for the arrays built by the two loops. -/
theorem spline_row (n : ℕ) (x y : ℕ → α) (hx : StrictIncr n x) (k : ℕ) (hk : k + 2 < n) :
    (x (k + 1) - x k) / 6 * splineBackward n (splineForward n x y) k
      + (x (k + 2) - x k) / 3 * splineBackward n (splineForward n x y) (k + 1)
      + (x (k + 2) - x (k + 1)) / 6 * splineBackward n (splineForward n x y) (k + 2)
    = (y (k + 2) - y (k + 1)) / (x (k + 2) - x (k + 1)) - (y (k + 1) - y k) / (x (k + 1) - x k) := by
  have hh0 : 0 < x (k + 1) - x k := sub_pos.mpr (hx k (by omega))
  have hh1 : 0 < x (k + 2) - x (k + 1) := sub_pos.mpr (hx (k + 1) hk)
  have hS : x (k + 2) - x k = (x (k + 1) - x k) + (x (k + 2) - x (k + 1)) := by ring
  have hp := (pivot_bounds hx k hk).1
  have e0 := splineBackward_rec n (splineForward n x y) k (by omega)
  have e1 := splineBackward_rec n (splineForward n x y) (k + 1) (by omega)
  rw [splineForward_fst n x y k (by omega), splineForward_snd n x y k (by omega)] at e0
  rw [splineForward_fst n x y (k + 1) (by omega), splineForward_snd n x y (k + 1) (by omega)] at e1
  rw [hS] at hp ⊢
  refine tridiag_row hh0 hh1 (ne_of_gt (lt_trans zero_lt_one hp)) ?_ ?_ e0 e1
  · rw [fwdU, hS]
  · rw [fwdC, hS]

/-- C8. For n >= 3 nodes whose stored x is strictly increasing, the constructor leaves
`y2[0] = 0`, `y2[n-1] = 0` and every interior row of the natural-spline tridiagonal system
satisfied. -/
theorem CubicSpline.new_solves_natural_system
    (qsortds : ℤ → ℤ → (ℕ → α) → (ℕ → α) → (ℕ → α) × (ℕ → α)) (n : ℕ) (xin yin : ℕ → α)
    (s : CubicSpline α) (hs : s = CubicSpline.new qsortds n xin yin)
    (hn : 3 ≤ n) (hx : StrictIncr n s.x) :
    s.y2 0 = 0 ∧ s.y2 (n - 1) = 0 ∧
    ∀ i, 1 ≤ i → i ≤ n - 2 →
      (s.x i - s.x (i - 1)) / 6 * s.y2 (i - 1) + (s.x (i + 1) - s.x (i - 1)) / 3 * s.y2 i
        + (s.x (i + 1) - s.x i) / 6 * s.y2 (i + 1)
      = (s.y (i + 1) - s.y i) / (s.x (i + 1) - s.x i)
        - (s.y i - s.y (i - 1)) / (s.x i - s.x (i - 1)) := by
  subst hs
  refine ⟨splineBackward_first n _ _, splineBackward_last n _, ?_⟩
  intro i h1 h2
  obtain ⟨k, rfl⟩ : ∃ k, i = k + 1 := ⟨i - 1, by omega⟩
  exact spline_row n _ _ hx k (by omega)

theorem CubicSpline.new_solves_natural_system_witness :
    parabolaSpline.y2 0 = 0 ∧ parabolaSpline.y2 (3 - 1) = 0 ∧
    ∀ i, 1 ≤ i → i ≤ 3 - 2 →
      (parabolaSpline.x i - parabolaSpline.x (i - 1)) / 6 * parabolaSpline.y2 (i - 1)
        + (parabolaSpline.x (i + 1) - parabolaSpline.x (i - 1)) / 3 * parabolaSpline.y2 i
        + (parabolaSpline.x (i + 1) - parabolaSpline.x i) / 6 * parabolaSpline.y2 (i + 1)
      = (parabolaSpline.y (i + 1) - parabolaSpline.y i)
          / (parabolaSpline.x (i + 1) - parabolaSpline.x i)
        - (parabolaSpline.y i - parabolaSpline.y (i - 1))
          / (parabolaSpline.x i - parabolaSpline.x (i - 1)) :=
  CubicSpline.new_solves_natural_system sortWithCompanion 3 (fun i => (i : ℚ))
    (fun i => (i : ℚ) ^ 2) parabolaSpline rfl (by decide) parabolaSpline_strictIncr

/-! ## CubicSpline: evaluate -/
theorem bracket_done (x : ℕ → α) (xpt : α) (klo khi : ℕ) (h : ¬ khi > klo + 1) :
    bracket x xpt klo khi = (klo, khi) := by
  rw [bracket, if_neg h]

/-- Invariants of the bisection loop: the pair stays inside the initial pair, ends adjacent,
keeps `x[klo] <= xpt <= x[khi]`, and `khi` moves only to an index `k` with `xpt < x[k]`. -/
theorem bracket_spec (x : ℕ → α) (xpt : α) :
    ∀ (d klo khi : ℕ), khi - klo = d → klo < khi →
      klo ≤ (bracket x xpt klo khi).1 ∧
      (bracket x xpt klo khi).2 = (bracket x xpt klo khi).1 + 1 ∧
      (bracket x xpt klo khi).2 ≤ khi ∧
      (x klo ≤ xpt → x (bracket x xpt klo khi).1 ≤ xpt) ∧
      (xpt ≤ x khi → xpt ≤ x (bracket x xpt klo khi).2) ∧
      ((bracket x xpt klo khi).2 ≠ khi → xpt < x (bracket x xpt klo khi).2) := by
  intro d
  induction d using Nat.strong_induction_on with
  | _ d ih =>
    intro klo khi hd hlt
    rw [bracket]
    by_cases h : khi > klo + 1
    · rw [if_pos h]
      by_cases hk : xpt < x ((khi + klo) / 2)
      · rw [if_pos hk]
        obtain ⟨a1, a2, a3, a4, a5, a6⟩ :=
          ih (((khi + klo) / 2) - klo) (by omega) klo ((khi + klo) / 2) rfl (by omega)
        refine ⟨a1, a2, by omega, a4, fun _ => a5 (le_of_lt hk), fun _ => ?_⟩
        by_cases e : (bracket x xpt klo ((khi + klo) / 2)).2 = (khi + klo) / 2
        · rw [e]; exact hk
        · exact a6 e
      · rw [if_neg hk]
        obtain ⟨a1, a2, a3, a4, a5, a6⟩ :=
          ih (khi - ((khi + klo) / 2)) (by omega) ((khi + klo) / 2) khi rfl (by omega)
        exact ⟨by omega, a2, a3, fun _ => a4 (not_lt.mp hk), a5, a6⟩
    · rw [if_neg h]
      have : khi = klo + 1 := by omega
      subst this
      exact ⟨le_refl _, rfl, le_refl _, id, id, fun h => absurd rfl h⟩

theorem eps_pos : (0 : α) < 1.e-60 := by norm_num

theorem CubicSpline.evaluate_of_lt_first (s : CubicSpline α) (xpt : α) (h : xpt < s.x 0) :
    s.evaluate xpt = s.y 0 := by
  rw [CubicSpline.evaluate, if_pos h]

theorem CubicSpline.evaluate_of_gt_last (s : CubicSpline α) (xpt : α) (h0 : ¬ xpt < s.x 0)
    (h : xpt > s.x (s.n - 1)) : s.evaluate xpt = s.y (s.n - 1) := by
  rw [CubicSpline.evaluate, if_neg h0, if_pos h]

theorem CubicSpline.evaluate_inside (s : CubicSpline α) (xpt : α) (h0 : ¬ xpt < s.x 0)
    (h : ¬ xpt > s.x (s.n - 1)) (klo khi : ℕ) (hb : bracket s.x xpt 0 (s.n - 1) = (klo, khi)) :
    s.evaluate xpt =
      (s.x khi - xpt) / (s.x khi - s.x klo + 1.e-60) * s.y klo
      + (xpt - s.x klo) / (s.x khi - s.x klo + 1.e-60) * s.y khi
      + ((s.x khi - xpt) / (s.x khi - s.x klo + 1.e-60)
          * ((s.x khi - xpt) / (s.x khi - s.x klo + 1.e-60)
            * ((s.x khi - xpt) / (s.x khi - s.x klo + 1.e-60)) - 1) * s.y2 klo
        + (xpt - s.x klo) / (s.x khi - s.x klo + 1.e-60)
          * ((xpt - s.x klo) / (s.x khi - s.x klo + 1.e-60)
            * ((xpt - s.x klo) / (s.x khi - s.x klo + 1.e-60)) - 1) * s.y2 khi)
        * (s.x khi - s.x klo + 1.e-60) * (s.x khi - s.x klo + 1.e-60) / 6 := by
  rw [CubicSpline.evaluate, if_neg h0, if_neg h]
  simp only [hb]

theorem fwdC_collinear {n : ℕ} {x y : ℕ → α} (hx : StrictIncr n x) (m q : α)
    (hy : ∀ i, i < n → y i = m * x i + q) : ∀ i, i + 1 < n → fwdC x y i = 0 := by
  intro i
  induction i with
  | zero => intro _; rfl
  | succ i ih =>
    intro hi
    have h0 : x (i + 1) - x i ≠ 0 := ne_of_gt (sub_pos.mpr (hx i (by omega)))
    have h1 : x (i + 2) - x (i + 1) ≠ 0 := ne_of_gt (sub_pos.mpr (hx (i + 1) hi))
    have e1 : (y (i + 2) - y (i + 1)) / (x (i + 2) - x (i + 1)) = m := by
      rw [hy (i + 2) hi, hy (i + 1) (by omega)]
      field_simp
      ring
    have e0 : (y (i + 1) - y i) / (x (i + 1) - x i) = m := by
      rw [hy (i + 1) (by omega), hy i (by omega)]
      field_simp
      ring
    rw [fwdC, e1, e0, ih (by omega)]
    simp

theorem y2_collinear {n : ℕ} {x y : ℕ → α} (hx : StrictIncr n x) (m q : α)
    (hy : ∀ i, i < n → y i = m * x i + q) :
    ∀ i, i < n → splineBackward n (splineForward n x y) i = 0 := by
  have key : ∀ k, k < n → splineBackward n (splineForward n x y) (n - 1 - k) = 0 := by
    intro k
    induction k with
    | zero => intro _; exact splineBackward_last n _
    | succ k ih =>
      intro hk
      rw [splineBackward_rec n _ (n - 1 - (k + 1)) (by omega),
        show n - 1 - (k + 1) + 1 = n - 1 - k by omega, ih (by omega),
        splineForward_snd n x y _ (by omega), fwdC_collinear hx m q hy _ (by omega)]
      simp
  intro i hi
  have := key (n - 1 - i) (by omega)
  rwa [show n - 1 - (n - 1 - i) = i by omega] at this

/-- Algebra of the interpolation formula on collinear data with vanishing second derivatives. -/
theorem linear_formula (xl xh e m q xpt : α) (hd : xh - xl + e ≠ 0) :
    (xh - xpt) / (xh - xl + e) * (m * xl + q) + (xpt - xl) / (xh - xl + e) * (m * xh + q)
      + ((xh - xpt) / (xh - xl + e) * ((xh - xpt) / (xh - xl + e) * ((xh - xpt) / (xh - xl + e)) - 1)
          * 0
        + (xpt - xl) / (xh - xl + e) * ((xpt - xl) / (xh - xl + e) * ((xpt - xl) / (xh - xl + e)) - 1)
          * 0) * (xh - xl + e) * (xh - xl + e) / 6
    = (m * xpt + q) * ((xh - xl) / (xh - xl + e)) := by
  field_simp
  ring

/-- On collinear data `evaluate` returns the line scaled by `h / (h + 1e-60)`, `h` the width of
the bracketing interval. -/
theorem CubicSpline.evaluate_collinear (s : CubicSpline α) (hn : 2 ≤ s.n)
    (hx : StrictIncr s.n s.x) (m q : α) (hy : ∀ i, i < s.n → s.y i = m * s.x i + q)
    (hy2 : ∀ i, i < s.n → s.y2 i = 0) (xpt : α) (h0 : s.x 0 ≤ xpt) (h1 : xpt ≤ s.x (s.n - 1)) :
    ∃ k, k + 1 < s.n ∧ s.x k ≤ xpt ∧ xpt ≤ s.x (k + 1) ∧
      s.evaluate xpt
        = (m * xpt + q) * ((s.x (k + 1) - s.x k) / (s.x (k + 1) - s.x k + 1.e-60)) := by
  obtain ⟨a1, a2, a3, a4, a5, a6⟩ := bracket_spec s.x xpt (s.n - 1) 0 (s.n - 1) rfl (by omega)
  refine ⟨(bracket s.x xpt 0 (s.n - 1)).1, by omega, a4 h0, ?_, ?_⟩
  · rw [← a2]; exact a5 h1
  · have hb : bracket s.x xpt 0 (s.n - 1)
        = ((bracket s.x xpt 0 (s.n - 1)).1, (bracket s.x xpt 0 (s.n - 1)).1 + 1) :=
      Prod.ext rfl a2
    rw [s.evaluate_inside xpt (not_lt.mpr h0) (not_lt.mpr h1) _ _ hb,
      hy _ (by omega), hy _ (by omega), hy2 _ (by omega), hy2 _ (by omega)]
    have hpos : 0 < s.x ((bracket s.x xpt 0 (s.n - 1)).1 + 1)
        - s.x (bracket s.x xpt 0 (s.n - 1)).1 :=
      sub_pos.mpr (hx _ (by omega))
    exact linear_formula _ _ _ _ _ _ (ne_of_gt (add_pos hpos eps_pos))

theorem lineSpline_y2 (i : ℕ) (hi : i < 3) : lineSpline.y2 i = 0 :=
  y2_collinear (n := 3) (x := lineSpline.x) (y := lineSpline.y)
    lineSpline_strictIncr 1 0 lineSpline_line i hi

theorem tinyNodes_strictIncr : StrictIncr 3 (fun i : ℕ => (i : ℚ) * 1.e-60) := by
  intro i _
  show (i : ℚ) * 1.e-60 < ((i + 1 : ℕ) : ℚ) * 1.e-60
  push_cast
  linarith [@eps_pos ℚ _]

theorem tinySpline_nodes (i : ℕ) (hi : i < 3) :
    tinySpline.x i = (i : ℚ) * 1.e-60 ∧ tinySpline.y i = (i : ℚ) :=
  (sortWithCompanion_spec 3 (fun i : ℕ => (i : ℚ) * 1.e-60)
    (fun i : ℕ => (i : ℚ))).eq_of_strictIncr tinyNodes_strictIncr i hi

theorem tinySpline_strictIncr : StrictIncr 3 tinySpline.x := by
  intro i hi
  rw [(tinySpline_nodes i (by omega)).1, (tinySpline_nodes (i + 1) hi).1]
  exact tinyNodes_strictIncr i hi

theorem tinySpline_line (i : ℕ) (hi : i < 3) : tinySpline.y i = 1e60 * tinySpline.x i + 0 := by
  rw [(tinySpline_nodes i hi).1, (tinySpline_nodes i hi).2]
  norm_num
  ring

theorem tinySpline_width (k : ℕ) (hk : k + 1 < 3) :
    tinySpline.x (k + 1) - tinySpline.x k = 1.e-60 := by
  rw [(tinySpline_nodes k (by omega)).1, (tinySpline_nodes (k + 1) hk).1]
  push_cast
  ring

/-- Deviation of the value on collinear data from the line, in terms of the guard `e`. -/
theorem collinear_deviation (L h e : α) (hh : 0 < h) (he : 0 < e) :
    |L * (h / (h + e)) - L| ≤ |L| * (e / h) := by
  have hhe : 0 < h + e := add_pos hh he
  have h1 : L * (h / (h + e)) - L = -(L * (e / (h + e))) := by
    field_simp
    ring
  have hb : e / (h + e) ≤ e / h := div_le_div_of_nonneg_left he.le hh (by linarith)
  rw [h1, abs_neg, abs_mul, abs_of_nonneg (div_pos he hhe).le]
  exact mul_le_mul_of_nonneg_left hb (abs_nonneg L)

theorem tinySpline_y2 (i : ℕ) (hi : i < 3) : tinySpline.y2 i = 0 :=
  y2_collinear (n := 3) (x := tinySpline.x) (y := tinySpline.y)
    tinySpline_strictIncr 1e60 0 tinySpline_line i hi

/-- C6. Flat extrapolation: a query below every node returns the y stored with the first
node after sorting, a query above every node returns the y stored with the last one; the
first (last) stored node is an input node of minimal (maximal) x. -/
theorem CubicSpline.flat_extrapolation
    (qsortds : ℤ → ℤ → (ℕ → α) → (ℕ → α) → (ℕ → α) × (ℕ → α)) (n : ℕ) (xin yin : ℕ → α)
    (s : CubicSpline α) (hs : s = CubicSpline.new qsortds n xin yin) (hn : 1 ≤ n)
    (hsort : SortedWithCompanion n xin yin (qsortds 0 ((n : ℤ) - 1) xin yin)) (xpt : α) :
    ((∀ i, i < n → xpt < xin i) → s.evaluate xpt = s.y 0) ∧
    ((∀ i, i < n → xin i < xpt) → s.evaluate xpt = s.y (n - 1)) ∧
    (∃ k, k < n ∧ s.x 0 = xin k ∧ s.y 0 = yin k ∧ ∀ i, i < n → xin k ≤ xin i) ∧
    (∃ k, k < n ∧ s.x (n - 1) = xin k ∧ s.y (n - 1) = yin k ∧ ∀ i, i < n → xin i ≤ xin k) := by
  subst hs
  obtain ⟨k0, hk0, ex0, ey0⟩ := hsort.out_mem 0 (by omega)
  obtain ⟨k1, hk1, ex1, ey1⟩ := hsort.out_mem (n - 1) (by omega)
  have hmin : ∀ i, i < n → xin k0 ≤ xin i := by
    intro i hi
    obtain ⟨j, hj, e, _⟩ := hsort.in_mem i hi
    rw [← ex0, ← e]
    exact hsort.mono 0 j (Nat.zero_le _) hj
  have hmax : ∀ i, i < n → xin i ≤ xin k1 := by
    intro i hi
    obtain ⟨j, hj, e, _⟩ := hsort.in_mem i hi
    rw [← ex1, ← e]
    exact hsort.mono j (n - 1) (by omega) (by omega)
  refine ⟨?_, ?_, ⟨k0, hk0, ex0, ey0, hmin⟩, ⟨k1, hk1, ex1, ey1, hmax⟩⟩
  · intro h
    apply CubicSpline.evaluate_of_lt_first
    show xpt < (qsortds 0 ((n : ℤ) - 1) xin yin).1 0
    rw [ex0]
    exact h k0 hk0
  · intro h
    have hlast : (qsortds 0 ((n : ℤ) - 1) xin yin).1 (n - 1) < xpt := by
      rw [ex1]
      exact h k1 hk1
    apply CubicSpline.evaluate_of_gt_last
    · show ¬ xpt < (qsortds 0 ((n : ℤ) - 1) xin yin).1 0
      exact not_lt.mpr (le_trans (hsort.mono 0 (n - 1) (Nat.zero_le _) (by omega)) (le_of_lt hlast))
    · exact hlast

theorem CubicSpline.flat_extrapolation_witness :
    ((∀ i, i < 3 → (-1 : ℚ) < [2, 0, 1].getD i 0) → unsortedSpline.evaluate (-1) = unsortedSpline.y 0) ∧
    ((∀ i, i < 3 → [2, 0, 1].getD i 0 < (-1 : ℚ)) →
      unsortedSpline.evaluate (-1) = unsortedSpline.y (3 - 1)) ∧
    (∃ k, k < 3 ∧ unsortedSpline.x 0 = [2, 0, 1].getD k 0 ∧ unsortedSpline.y 0 = [20, 0, 10].getD k 0
      ∧ ∀ i, i < 3 → [2, 0, 1].getD k 0 ≤ [2, 0, 1].getD i (0 : ℚ)) ∧
    (∃ k, k < 3 ∧ unsortedSpline.x (3 - 1) = [2, 0, 1].getD k 0
      ∧ unsortedSpline.y (3 - 1) = [20, 0, 10].getD k 0
      ∧ ∀ i, i < 3 → [2, 0, 1].getD i 0 ≤ [2, 0, 1].getD k (0 : ℚ)) :=
  CubicSpline.flat_extrapolation sortWithCompanion 3 (fun i => [2, 0, 1].getD i 0)
    (fun i => [20, 0, 10].getD i 0) unsortedSpline rfl (by decide)
    (sortWithCompanion_spec 3 _ _) (-1)

/-- C7 (as amended). For n >= 3 collinear nodes `y = m*x + q` with strictly increasing stored x
the constructor computes `y2[i] = 0` for every i, and for every `xpt` in `[x[0], x[n-1]]`,
`evaluate` returns `(m*xpt + q) * h / (h + 1e-60)`, where `h = x[k+1] - x[k]` is the width of an
interval that brackets `xpt`; this differs from `m*xpt + q` by at most `|m*xpt + q| * 1e-60 / h`. -/
theorem CubicSpline.collinear_up_to_guard
    (qsortds : ℤ → ℤ → (ℕ → α) → (ℕ → α) → (ℕ → α) × (ℕ → α)) (n : ℕ) (xin yin : ℕ → α)
    (s : CubicSpline α) (hs : s = CubicSpline.new qsortds n xin yin) (hn : 3 ≤ n)
    (hx : StrictIncr n s.x) (m q : α) (hy : ∀ i, i < n → s.y i = m * s.x i + q) :
    (∀ i, i < n → s.y2 i = 0) ∧
    ∀ xpt, s.x 0 ≤ xpt → xpt ≤ s.x (n - 1) →
      ∃ k, k + 1 < n ∧ s.x k ≤ xpt ∧ xpt ≤ s.x (k + 1) ∧
        s.evaluate xpt
          = (m * xpt + q) * ((s.x (k + 1) - s.x k) / (s.x (k + 1) - s.x k + 1.e-60)) ∧
        |s.evaluate xpt - (m * xpt + q)|
          ≤ |m * xpt + q| * (1.e-60 / (s.x (k + 1) - s.x k)) := by
  subst hs
  have hy2 := y2_collinear hx m q hy
  refine ⟨hy2, ?_⟩
  intro xpt h0 h1
  obtain ⟨k, hk, a1, a2, e⟩ := CubicSpline.evaluate_collinear (CubicSpline.new qsortds n xin yin)
    (by show 2 ≤ n; omega) hx m q hy hy2 xpt h0 h1
  refine ⟨k, hk, a1, a2, e, ?_⟩
  rw [e]
  exact collinear_deviation _ _ _ (sub_pos.mpr (hx k hk)) eps_pos

theorem CubicSpline.collinear_up_to_guard_witness :
    (∀ i, i < 3 → lineSpline.y2 i = 0) ∧
    ∀ xpt, lineSpline.x 0 ≤ xpt → xpt ≤ lineSpline.x (3 - 1) →
      ∃ k, k + 1 < 3 ∧ lineSpline.x k ≤ xpt ∧ xpt ≤ lineSpline.x (k + 1) ∧
        lineSpline.evaluate xpt
          = (1 * xpt + 0) * ((lineSpline.x (k + 1) - lineSpline.x k)
              / (lineSpline.x (k + 1) - lineSpline.x k + 1.e-60)) ∧
        |lineSpline.evaluate xpt - (1 * xpt + 0)|
          ≤ |1 * xpt + 0| * (1.e-60 / (lineSpline.x (k + 1) - lineSpline.x k)) :=
  CubicSpline.collinear_up_to_guard sortWithCompanion 3 (fun i => (i : ℚ)) (fun i => (i : ℚ))
    lineSpline rfl (by decide) lineSpline_strictIncr 1 0 lineSpline_line

/-- C7 fails as stated: on the collinear nodes `(0,0), (1e-60,1), (2e-60,2)`, which lie on the
line `y = 1e60 * x`, `evaluate(5e-61)` is `1/4`, while the line gives `1/2`. -/
theorem CubicSpline.collinear_not_exact :
    tinySpline.evaluate 5e-61 = 1 / 4 ∧ tinySpline.evaluate 5e-61 ≠ 1e60 * 5e-61 + 0 := by
  obtain ⟨k, hk, _, _, e⟩ := CubicSpline.evaluate_collinear tinySpline (by decide)
    tinySpline_strictIncr 1e60 0 tinySpline_line tinySpline_y2 5e-61
    (by rw [(tinySpline_nodes 0 (by decide)).1]; norm_num)
    (by show (5e-61 : ℚ) ≤ tinySpline.x 2; rw [(tinySpline_nodes 2 (by decide)).1]; norm_num)
  have hk3 : k + 1 < 3 := hk
  rw [tinySpline_width k hk3] at e
  have hv : tinySpline.evaluate 5e-61 = 1 / 4 := by
    rw [e]
    norm_num
  refine ⟨hv, ?_⟩
  rw [hv]
  norm_num

/-- A loop that stores `f i` in cell `i + off` for `i = 0 .. m-1`. -/
theorem foldl_update_range {β : Type} (f : ℕ → β) (off m : ℕ) (a : ℕ → β) (j : ℕ) :
    (List.range m).foldl (fun (x : ℕ → β) (i : ℕ) => Function.update x (i + off) (f i)) a j
      = if off ≤ j ∧ j < off + m then f (j - off) else a j := by
  induction m with
  | zero =>
    have : ¬ (off ≤ j ∧ j < off + 0) := by omega
    rw [if_neg this]
    rfl
  | succ m ih =>
    rw [List.range_succ, List.foldl_append]
    simp only [List.foldl_cons, List.foldl_nil]
    by_cases hj : j = m + off
    · subst hj
      rw [Function.update_same, if_pos (by omega)]
      congr 1
      omega
    · rw [Function.update_noteq hj, ih]
      by_cases h1 : off ≤ j ∧ j < off + m
      · rw [if_pos h1, if_pos (by omega)]
      · rw [if_neg h1, if_neg (by omega)]

theorem grid1_lo (low high : α) (i : ℕ) (hi : i < 100) :
    grid1 low high i = low + (i : α) * ((-1.5 - low) / 100) := by
  unfold grid1
  rw [foldl_update_range _ 900 101, if_neg (by omega), foldl_update_range _ 100 800,
    if_neg (by omega)]
  have := foldl_update_range (fun i : ℕ => low + (i : α) * ((-1.5 - low) / 100)) 0 100
    (fun _ => 0) i
  rw [if_pos (by omega)] at this
  exact this

theorem grid1_mid (low high : α) (i : ℕ) (hi : i < 800) :
    grid1 low high (i + 100) = (low + 99 * ((-1.5 - low) / 100))
      + ((i + 1 : ℕ) : α) * ((1.5 - (low + 99 * ((-1.5 - low) / 100))) / 801) := by
  have h99 := grid1_lo low high 99 (by omega)
  unfold grid1 at h99 ⊢
  rw [foldl_update_range _ 900 101, if_neg (by omega), foldl_update_range _ 100 800,
    if_neg (by omega)] at h99
  rw [foldl_update_range _ 900 101, if_neg (by omega), foldl_update_range _ 100 800,
    if_pos (by omega), h99]
  simp

theorem grid1_hi (low high : α) (i : ℕ) (hi : i < 101) :
    grid1 low high (i + 900) =
      ((low + 99 * ((-1.5 - low) / 100))
        + 800 * ((1.5 - (low + 99 * ((-1.5 - low) / 100))) / 801))
      + ((i + 1 : ℕ) : α) * ((high - ((low + 99 * ((-1.5 - low) / 100))
        + 800 * ((1.5 - (low + 99 * ((-1.5 - low) / 100))) / 801))) / 101) := by
  have h899 := grid1_mid low high 799 (by omega)
  unfold grid1 at h899 ⊢
  rw [foldl_update_range _ 900 101, if_neg (by omega)] at h899
  rw [foldl_update_range _ 900 101, if_pos (by omega), h899]
  simp

/-- The 1001 abscissas are strictly increasing as soon as `low < -1.5` and `1.5 < high`. -/
theorem grid1_strictIncr (low high : α) (hlow : low < -1.5) (hhigh : 1.5 < high) :
    StrictIncr 1001 (grid1 low high) := by
  have hinc1 : 0 < (-1.5 - low) / 100 := by
    apply div_pos <;> linarith
  have h99 : low + 99 * ((-1.5 - low) / 100) < -1.5 := by linarith
  have hinc2 : 0 < (1.5 - (low + 99 * ((-1.5 - low) / 100))) / 801 := by
    apply div_pos
    · norm_num at h99 ⊢
      linarith
    · norm_num
  have h899 : (low + 99 * ((-1.5 - low) / 100))
      + 800 * ((1.5 - (low + 99 * ((-1.5 - low) / 100))) / 801) < 1.5 := by
    linarith
  have hinc3 : 0 < (high - ((low + 99 * ((-1.5 - low) / 100))
      + 800 * ((1.5 - (low + 99 * ((-1.5 - low) / 100))) / 801))) / 101 := by
    apply div_pos
    · linarith
    · norm_num
  intro i hi
  rcases Nat.lt_or_ge (i + 1) 100 with c1 | c1
  · rw [grid1_lo low high i (by omega), grid1_lo low high (i + 1) c1]
    push_cast
    linarith
  rcases Nat.lt_or_ge i 100 with c2 | c2
  · have : i = 99 := by omega
    subst this
    rw [grid1_lo low high 99 (by omega), grid1_mid low high 0 (by omega)]
    push_cast
    linarith
  rcases Nat.lt_or_ge (i + 1) 900 with c3 | c3
  · obtain ⟨k, rfl⟩ : ∃ k, i = k + 100 := ⟨i - 100, by omega⟩
    rw [grid1_mid low high k (by omega), show k + 100 + 1 = (k + 1) + 100 by omega,
      grid1_mid low high (k + 1) (by omega)]
    push_cast
    linarith
  rcases Nat.lt_or_ge i 900 with c4 | c4
  · have : i = 799 + 100 := by omega
    subst this
    rw [grid1_mid low high 799 (by omega), grid1_hi low high 0 (by omega)]
    push_cast
    linarith
  · obtain ⟨k, rfl⟩ : ∃ k, i = k + 900 := ⟨i - 900, by omega⟩
    rw [grid1_hi low high k (by omega), show k + 900 + 1 = (k + 1) + 900 by omega,
      grid1_hi low high (k + 1) (by omega)]
    push_cast
    linarith

theorem ParzDens_1.new_spline (exp sqrt inverse_normal_cdf : α → α)
    (qsortdsi : ℤ → ℤ → (ℕ → α) → (ℕ → ℕ) → (ℕ → α) × (ℕ → ℕ))
    (qsortds : ℤ → ℤ → (ℕ → α) → (ℕ → α) → (ℕ → α) × (ℕ → α))
    (n_tset : ℕ) (tset : ℕ → α) (n_div : ℤ) (hn : 100 < n_tset) :
    (ParzDens_1.new exp sqrt inverse_normal_cdf qsortdsi qsortds n_tset tset n_div).spline
      = some (CubicSpline.new qsortds 1001
          (grid1 (ParzDens_1.new exp sqrt inverse_normal_cdf qsortdsi qsortds n_tset tset n_div).low
            (ParzDens_1.new exp sqrt inverse_normal_cdf qsortdsi qsortds n_tset tset n_div).high)
          (gridValues1 exp
            (ParzDens_1.new exp sqrt inverse_normal_cdf qsortdsi qsortds n_tset tset n_div).nd
            (ParzDens_1.new exp sqrt inverse_normal_cdf qsortdsi qsortds n_tset tset n_div).d
            (ParzDens_1.new exp sqrt inverse_normal_cdf qsortdsi qsortds n_tset tset n_div).var
            (ParzDens_1.new exp sqrt inverse_normal_cdf qsortdsi qsortds n_tset tset n_div).factor
            (grid1
              (ParzDens_1.new exp sqrt inverse_normal_cdf qsortdsi qsortds n_tset tset n_div).low
              (ParzDens_1.new exp sqrt inverse_normal_cdf qsortdsi qsortds n_tset tset
                n_div).high))) := by
  unfold ParzDens_1.new
  simp only [if_neg (not_le.mpr hn)]

theorem ParzDens_1.new_none (exp sqrt inverse_normal_cdf : α → α)
    (qsortdsi : ℤ → ℤ → (ℕ → α) → (ℕ → ℕ) → (ℕ → α) × (ℕ → ℕ))
    (qsortds : ℤ → ℤ → (ℕ → α) → (ℕ → α) → (ℕ → α) × (ℕ → α))
    (n_tset : ℕ) (tset : ℕ → α) (n_div : ℤ) (hn : n_tset ≤ 100) :
    (ParzDens_1.new exp sqrt inverse_normal_cdf qsortdsi qsortds n_tset tset n_div).spline
      = none := by
  unfold ParzDens_1.new
  simp only [if_pos hn]

theorem ParzDens_1.new_fields (exp sqrt inverse_normal_cdf : α → α)
    (qsortdsi : ℤ → ℤ → (ℕ → α) → (ℕ → ℕ) → (ℕ → α) × (ℕ → ℕ))
    (qsortds : ℤ → ℤ → (ℕ → α) → (ℕ → α) → (ℕ → α) × (ℕ → α))
    (n_tset : ℕ) (tset : ℕ → α) (n_div : ℤ) :
    (ParzDens_1.new exp sqrt inverse_normal_cdf qsortdsi qsortds n_tset tset n_div).nd = n_tset ∧
    (ParzDens_1.new exp sqrt inverse_normal_cdf qsortdsi qsortds n_tset tset n_div).d
      = normalize inverse_normal_cdf qsortdsi n_tset tset ∧
    (ParzDens_1.new exp sqrt inverse_normal_cdf qsortdsi qsortds n_tset tset n_div).var
      = 2 / (n_div : α) * (2 / (n_div : α)) ∧
    (ParzDens_1.new exp sqrt inverse_normal_cdf qsortdsi qsortds n_tset tset n_div).factor
      = 1 / ((n_tset : α) * sqrt (2 * PI * (2 / (n_div : α) * (2 / (n_div : α))))) ∧
    (ParzDens_1.new exp sqrt inverse_normal_cdf qsortdsi qsortds n_tset tset n_div).high
      = 3 + 3 * (2 / (n_div : α)) ∧
    (ParzDens_1.new exp sqrt inverse_normal_cdf qsortdsi qsortds n_tset tset n_div).low
      = -(3 + 3 * (2 / (n_div : α))) := by
  unfold ParzDens_1.new
  by_cases h : n_tset ≤ 100
  · simp only [if_pos h, and_self]
  · simp only [if_neg h, and_self]

theorem domain_bounds (n_div : ℤ) (h : 1 ≤ n_div) :
    -(3 + 3 * (2 / (n_div : α))) < -1.5 ∧ (1.5 : α) < 3 + 3 * (2 / (n_div : α)) := by
  have : (0 : α) < (n_div : α) := by exact_mod_cast (by omega : 0 < n_div)
  have h2 : (0 : α) < 2 / (n_div : α) := by positivity
  constructor <;> norm_num <;> linarith

theorem sqrt_two_pi_pos : 0 < Real.sqrt (2 * Real.pi) :=
  Real.sqrt_pos.mpr (by positivity)

theorem continuous_normalPdf : Continuous normalPdf := by
  unfold normalPdf
  fun_prop

theorem normalPdf_pos (t : ℝ) : 0 < normalPdf t :=
  div_pos (Real.exp_pos _) sqrt_two_pi_pos

theorem normalPdf_intervalIntegrable (a b : ℝ) : IntervalIntegrable normalPdf volume a b :=
  continuous_normalPdf.intervalIntegrable a b

theorem normalCdf_sub (a b : ℝ) : normalCdf b - normalCdf a = ∫ t in a..b, normalPdf t := by
  unfold normalCdf
  rw [add_sub_add_left_eq_sub,
    intervalIntegral.integral_interval_sub_left (normalPdf_intervalIntegrable 0 b)
      (normalPdf_intervalIntegrable 0 a)]

theorem normalCdf_strictMono : StrictMono normalCdf := by
  intro a b hab
  have := intervalIntegral.intervalIntegral_pos_of_pos (normalPdf_intervalIntegrable a b)
    normalPdf_pos hab
  rw [← normalCdf_sub] at this
  linarith

theorem continuous_normalCdf : Continuous normalCdf := by
  unfold normalCdf
  exact continuous_const.add
    (intervalIntegral.continuous_primitive normalPdf_intervalIntegrable 0)

theorem normalPdf_integrable : Integrable normalPdf := by
  unfold normalPdf
  exact (integrable_exp_neg_mul_sq (by norm_num : (0 : ℝ) < 1 / 2)).div_const _

theorem integral_normalPdf_Ioi : ∫ t in Set.Ioi (0 : ℝ), normalPdf t = 1 / 2 := by
  unfold normalPdf
  rw [integral_div, integral_gaussian_Ioi]
  have h : Real.pi / (1 / 2) = 2 * Real.pi := by ring
  rw [h]
  have := sqrt_two_pi_pos
  field_simp
  ring

theorem integral_normalPdf_Iic : ∫ t in Set.Iic (0 : ℝ), normalPdf t = 1 / 2 := by
  have h := integral_comp_neg_Ioi (0 : ℝ) normalPdf
  rw [neg_zero] at h
  rw [← h, ← integral_normalPdf_Ioi]
  congr 1
  funext t
  simp [normalPdf]

theorem tendsto_normalCdf_atTop : Filter.Tendsto normalCdf Filter.atTop (nhds 1) := by
  have h := intervalIntegral_tendsto_integral_Ioi (0 : ℝ) normalPdf_integrable.integrableOn
    Filter.tendsto_id
  rw [integral_normalPdf_Ioi] at h
  have h2 := h.const_add (1 / 2)
  norm_num at h2
  exact h2

theorem tendsto_normalCdf_atBot : Filter.Tendsto normalCdf Filter.atBot (nhds 0) := by
  have h := intervalIntegral_tendsto_integral_Iic (0 : ℝ) normalPdf_integrable.integrableOn
    Filter.tendsto_id
  rw [integral_normalPdf_Iic] at h
  have h2 := (h.neg).const_add (1 / 2)
  norm_num at h2
  refine h2.congr (fun x => ?_)
  unfold normalCdf
  rw [intervalIntegral.integral_symm, neg_neg]

/-- Every probability strictly between 0 and 1 is a value of the normal distribution function. -/
theorem exists_normalCdf_eq (p : ℝ) (h0 : 0 < p) (h1 : p < 1) : ∃ x, normalCdf x = p := by
  have hlo : ∃ a, normalCdf a ≤ p :=
    (((tendsto_normalCdf_atBot.eventually (gt_mem_nhds h0))).exists).imp fun a ha => le_of_lt ha
  have hhi : ∃ b, p ≤ normalCdf b :=
    (((tendsto_normalCdf_atTop.eventually (lt_mem_nhds h1))).exists).imp fun a ha => le_of_lt ha
  exact mem_range_of_exists_le_of_exists_ge continuous_normalCdf hlo hhi

theorem normalCdf_normalQuantile (p : ℝ) (h0 : 0 < p) (h1 : p < 1) :
    normalCdf (normalQuantile p) = p := by
  exact Function.invFun_eq (exists_normalCdf_eq p h0 h1)

theorem normalQuantile_strictMono (p q : ℝ) (hp : 0 < p) (hpq : p < q) (hq : q < 1) :
    normalQuantile p < normalQuantile q := by
  rw [← normalCdf_strictMono.lt_iff_lt, normalCdf_normalQuantile p hp (lt_trans hpq hq),
    normalCdf_normalQuantile q (lt_trans hp hpq) hq]
  exact hpq

/-! ## The rank normalisation -/
theorem normalize_eq (inverse_normal_cdf : α → α)
    (qsortdsi : ℤ → ℤ → (ℕ → α) → (ℕ → ℕ) → (ℕ → α) × (ℕ → ℕ)) (nd : ℕ) (tset : ℕ → α) :
    normalize inverse_normal_cdf qsortdsi nd tset
      = normalizeScatter inverse_normal_cdf nd (sortedOrder qsortdsi nd tset).1
          (sortedOrder qsortdsi nd tset).2 := rfl

theorem normalizeInit_foldl (tset : ℕ → α) (m : ℕ) :
    ∀ j, j < m →
      ((List.range m).foldl
        (fun (s : (ℕ → α) × (ℕ → ℕ)) i => (Function.update s.1 i (tset i), Function.update s.2 i i))
        (fun _ => 0, fun _ => 0)).1 j = tset j ∧
      ((List.range m).foldl
        (fun (s : (ℕ → α) × (ℕ → ℕ)) i => (Function.update s.1 i (tset i), Function.update s.2 i i))
        (fun _ => 0, fun _ => 0)).2 j = j := by
  induction m with
  | zero => intro j hj; omega
  | succ m ih =>
    intro j hj
    rw [List.range_succ, List.foldl_append]
    simp only [List.foldl_cons, List.foldl_nil]
    by_cases e : j = m
    · subst e
      simp
    · rw [Function.update_noteq e, Function.update_noteq e]
      exact ih j (by omega)

theorem normalizeInit_fst (nd : ℕ) (tset : ℕ → α) (j : ℕ) (hj : j < nd) :
    (normalizeInit nd tset).1 j = tset j := (normalizeInit_foldl tset nd j hj).1

theorem normalizeInit_snd (nd : ℕ) (tset : ℕ → α) (j : ℕ) (hj : j < nd) :
    (normalizeInit nd tset).2 j = j := (normalizeInit_foldl tset nd j hj).2

/-- The scatter loop, when the index array is injective on the cells it reads: cell
`indices[k]` ends up holding the quantile of position `k`. -/
theorem normalizeScatter_apply (inverse_normal_cdf : α → α) (nd : ℕ) (indices : ℕ → ℕ)
    (hinj : ∀ i j, i < nd → j < nd → indices i = indices j → i = j) (m : ℕ) (hm : m ≤ nd) :
    ∀ (d : ℕ → α) k, k < m →
      (List.range m).foldl
        (fun (d : ℕ → α) i => Function.update d (indices i)
          (inverse_normal_cdf (((i : α) + 1) / ((nd + 1 : ℕ) : α)))) d (indices k)
        = inverse_normal_cdf (((k : α) + 1) / ((nd + 1 : ℕ) : α)) := by
  induction m with
  | zero => intro d k hk; omega
  | succ m ih =>
    intro d k hk
    rw [List.range_succ, List.foldl_append]
    simp only [List.foldl_cons, List.foldl_nil]
    by_cases e : k = m
    · subst e
      rw [Function.update_same]
    · have hne : indices k ≠ indices m := fun h => e (hinj k m (by omega) (by omega) h)
      rw [Function.update_noteq hne]
      exact ih (by omega) d k (by omega)

/-- Under the sorter contract every original index has exactly one position in the sorted
order, the value sorted into that position is the sample value, and the normalised value is the
quantile of that position. -/
theorem normalize_spec (inverse_normal_cdf : α → α)
    (qsortdsi : ℤ → ℤ → (ℕ → α) → (ℕ → ℕ) → (ℕ → α) × (ℕ → ℕ))
    (hsort : ∀ (n : ℕ) (d : ℕ → α) (s : ℕ → ℕ),
      SortedWithCompanion n d s (qsortdsi 0 ((n : ℤ) - 1) d s))
    (nd : ℕ) (tset : ℕ → α) (i : ℕ) (hi : i < nd) :
    ∃ r, r < nd ∧ (sortedOrder qsortdsi nd tset).2 r = i ∧
      (sortedOrder qsortdsi nd tset).1 r = tset i ∧
      (∀ r', r' < nd → (sortedOrder qsortdsi nd tset).2 r' = i → r' = r) ∧
      normalize inverse_normal_cdf qsortdsi nd tset i
        = inverse_normal_cdf (((r : α) + 1) / ((nd + 1 : ℕ) : α)) := by
  have hs := hsort nd (normalizeInit nd tset).1 (normalizeInit nd tset).2
  have hinj : ∀ a b, a < nd → b < nd →
      (sortedOrder qsortdsi nd tset).2 a = (sortedOrder qsortdsi nd tset).2 b → a = b := by
    apply hs.slave_injective
    intro a b ha hb e
    rwa [normalizeInit_snd nd tset a ha, normalizeInit_snd nd tset b hb] at e
  obtain ⟨r, hr, e1, e2⟩ := hs.in_mem i hi
  rw [normalizeInit_fst nd tset i hi] at e1
  rw [normalizeInit_snd nd tset i hi] at e2
  refine ⟨r, hr, e2, e1, ?_, ?_⟩
  · intro r' hr' e
    exact hinj r' r hr' hr (e.trans e2.symm)
  · rw [normalize_eq]
    have := normalizeScatter_apply inverse_normal_cdf nd (sortedOrder qsortdsi nd tset).2 hinj nd
      (le_refl _) (sortedOrder qsortdsi nd tset).1 r hr
    rw [show (sortedOrder qsortdsi nd tset).2 r = i from e2] at this
    exact this

/-- A sample that is already strictly increasing keeps its order: position `i` is index `i`. -/
theorem sortedOrder_of_strictIncr
    (qsortdsi : ℤ → ℤ → (ℕ → α) → (ℕ → ℕ) → (ℕ → α) × (ℕ → ℕ))
    (hsort : ∀ (n : ℕ) (d : ℕ → α) (s : ℕ → ℕ),
      SortedWithCompanion n d s (qsortdsi 0 ((n : ℤ) - 1) d s))
    (nd : ℕ) (tset : ℕ → α) (ht : StrictIncr nd tset) (i : ℕ) (hi : i < nd) :
    (sortedOrder qsortdsi nd tset).2 i = i := by
  have hs := hsort nd (normalizeInit nd tset).1 (normalizeInit nd tset).2
  have hd : StrictIncr nd (normalizeInit nd tset).1 := by
    intro k hk
    rw [normalizeInit_fst nd tset k (by omega), normalizeInit_fst nd tset (k + 1) hk]
    exact ht k hk
  rw [sortedOrder, (hs.eq_of_strictIncr hd i hi).2, normalizeInit_snd nd tset i hi]

theorem sample5_strictIncr : StrictIncr 5 (sample5 : ℕ → α) := by
  intro i hi
  have : i = 0 ∨ i = 1 ∨ i = 2 ∨ i = 3 := by omega
  rcases this with h | h | h | h <;> subst h <;> simp [sample5] <;> norm_num

theorem quantile_arg_bounds (nd r : ℕ) (hr : r < nd) :
    (0 : α) < ((r : α) + 1) / ((nd + 1 : ℕ) : α) ∧ ((r : α) + 1) / ((nd + 1 : ℕ) : α) < 1 := by
  have h1 : (0 : α) < ((nd + 1 : ℕ) : α) := by exact_mod_cast Nat.succ_pos nd
  have h2 : (0 : α) < (r : α) + 1 := by positivity
  refine ⟨div_pos h2 h1, ?_⟩
  rw [div_lt_one h1]
  have : ((r + 1 : ℕ) : α) < ((nd + 1 : ℕ) : α) := by exact_mod_cast (by omega : r + 1 < nd + 1)
  push_cast at this ⊢
  exact this

theorem quantile_arg_lt (nd r r' : ℕ) (h : r < r') :
    ((r : α) + 1) / ((nd + 1 : ℕ) : α) < ((r' : α) + 1) / ((nd + 1 : ℕ) : α) := by
  have h1 : (0 : α) < ((nd + 1 : ℕ) : α) := by exact_mod_cast Nat.succ_pos nd
  apply div_lt_div_of_pos_right _ h1
  have : (r : α) < (r' : α) := by exact_mod_cast h
  linarith

/-- C1. Rank-Normalizer: under the sorter contract, for a sample of n >= 1 values every original
index i has exactly one zero-based position r in the sorted order (the sorted index array holds
i at r, the sorted data array holds sample[i] at r), and the stored normalised value at index i
is `inverse_normal_cdf((r + 1) / (n + 1))`; for the sample [10, 20, 30, 40, 50] the normalised
value at index i is `inverse_normal_cdf((i + 1) / 6)`. -/
theorem normalize_rank_quantile (inverse_normal_cdf : α → α)
    (qsortdsi : ℤ → ℤ → (ℕ → α) → (ℕ → ℕ) → (ℕ → α) × (ℕ → ℕ))
    (hsort : ∀ (n : ℕ) (d : ℕ → α) (s : ℕ → ℕ),
      SortedWithCompanion n d s (qsortdsi 0 ((n : ℤ) - 1) d s)) :
    (∀ (nd : ℕ) (tset : ℕ → α), 1 ≤ nd → ∀ i, i < nd →
      ∃ r, r < nd ∧ (sortedOrder qsortdsi nd tset).2 r = i ∧
        (sortedOrder qsortdsi nd tset).1 r = tset i ∧
        (∀ r', r' < nd → (sortedOrder qsortdsi nd tset).2 r' = i → r' = r) ∧
        normalize inverse_normal_cdf qsortdsi nd tset i
          = inverse_normal_cdf (((r : α) + 1) / ((nd : α) + 1))) ∧
    (∀ i, i < 5 →
      normalize inverse_normal_cdf qsortdsi 5 sample5 i = inverse_normal_cdf (((i : α) + 1) / 6)) := by
  constructor
  · intro nd tset _ i hi
    obtain ⟨r, h1, h2, h3, h4, h5⟩ := normalize_spec inverse_normal_cdf qsortdsi hsort nd tset i hi
    refine ⟨r, h1, h2, h3, h4, ?_⟩
    rw [h5]
    push_cast
    rfl
  · intro i hi
    obtain ⟨r, h1, h2, _, _, h5⟩ := normalize_spec inverse_normal_cdf qsortdsi hsort 5 sample5 i hi
    have := sortedOrder_of_strictIncr qsortdsi hsort 5 sample5 sample5_strictIncr r h1
    have hri : r = i := this.symm.trans h2
    subst hri
    rw [h5]
    norm_num

theorem normalize_rank_quantile_witness :
    (∀ (nd : ℕ) (tset : ℕ → ℝ), 1 ≤ nd → ∀ i, i < nd →
      ∃ r, r < nd ∧ (sortedOrder sortWithCompanion nd tset).2 r = i ∧
        (sortedOrder sortWithCompanion nd tset).1 r = tset i ∧
        (∀ r', r' < nd → (sortedOrder sortWithCompanion nd tset).2 r' = i → r' = r) ∧
        normalize normalQuantile sortWithCompanion nd tset i
          = normalQuantile (((r : ℝ) + 1) / ((nd : ℝ) + 1))) ∧
    (∀ i, i < 5 →
      normalize normalQuantile sortWithCompanion 5 (sample5 : ℕ → ℝ) i
        = normalQuantile (((i : ℝ) + 1) / 6)) :=
  normalize_rank_quantile normalQuantile sortWithCompanion
    (fun n d s => sortWithCompanion_spec n d s)

/-- C2. Rank-Normalizer order preservation: under the sorter contract and with
`inverse_normal_cdf` strictly increasing on (0,1), `sample[i] < sample[j]` implies
`normalized[i] <= normalized[j]`, and `normalized[i] = normalized[j]` implies
`sample[i] = sample[j]`. -/
theorem normalize_order_preserving (inverse_normal_cdf : α → α)
    (qsortdsi : ℤ → ℤ → (ℕ → α) → (ℕ → ℕ) → (ℕ → α) × (ℕ → ℕ))
    (hsort : ∀ (n : ℕ) (d : ℕ → α) (s : ℕ → ℕ),
      SortedWithCompanion n d s (qsortdsi 0 ((n : ℤ) - 1) d s))
    (hinv : ∀ p q, 0 < p → p < q → q < 1 → inverse_normal_cdf p < inverse_normal_cdf q)
    (nd : ℕ) (tset : ℕ → α) (i j : ℕ) (hi : i < nd) (hj : j < nd) :
    (tset i < tset j →
      normalize inverse_normal_cdf qsortdsi nd tset i
        ≤ normalize inverse_normal_cdf qsortdsi nd tset j) ∧
    (normalize inverse_normal_cdf qsortdsi nd tset i
        = normalize inverse_normal_cdf qsortdsi nd tset j → tset i = tset j) := by
  obtain ⟨ri, hri, ei, di, _, ni⟩ := normalize_spec inverse_normal_cdf qsortdsi hsort nd tset i hi
  obtain ⟨rj, hrj, ej, dj, _, nj⟩ := normalize_spec inverse_normal_cdf qsortdsi hsort nd tset j hj
  have hs := hsort nd (normalizeInit nd tset).1 (normalizeInit nd tset).2
  have hstrict : ∀ a b, a < nd → b < nd → a < b →
      inverse_normal_cdf (((a : α) + 1) / ((nd + 1 : ℕ) : α))
        < inverse_normal_cdf (((b : α) + 1) / ((nd + 1 : ℕ) : α)) := by
    intro a b ha hb hab
    exact hinv _ _ (quantile_arg_bounds nd a ha).1 (quantile_arg_lt nd a b hab)
      (quantile_arg_bounds nd b hb).2
  constructor
  · intro hlt
    have hr : ri < rj := by
      by_contra hc
      have := hs.mono rj ri (not_lt.mp hc) hri
      rw [show (qsortdsi 0 ((nd : ℤ) - 1) (normalizeInit nd tset).1 (normalizeInit nd tset).2).1 rj
          = tset j from dj,
        show (qsortdsi 0 ((nd : ℤ) - 1) (normalizeInit nd tset).1 (normalizeInit nd tset).2).1 ri
          = tset i from di] at this
      exact absurd hlt (not_lt.mpr this)
    rw [ni, nj]
    exact le_of_lt (hstrict ri rj hri hrj hr)
  · intro e
    rw [ni, nj] at e
    have hr : ri = rj := by
      rcases lt_trichotomy ri rj with h | h | h
      · exact absurd e (ne_of_lt (hstrict ri rj hri hrj h))
      · exact h
      · exact absurd e.symm (ne_of_lt (hstrict rj ri hrj hri h))
    have : i = j := by
      rw [hr] at ei
      exact ei.symm.trans ej
    rw [this]

theorem normalize_order_preserving_witness :
    ((sample5 : ℕ → ℝ) 0 < (sample5 : ℕ → ℝ) 1 →
      normalize normalQuantile sortWithCompanion 5 (sample5 : ℕ → ℝ) 0
        ≤ normalize normalQuantile sortWithCompanion 5 (sample5 : ℕ → ℝ) 1) ∧
    (normalize normalQuantile sortWithCompanion 5 (sample5 : ℕ → ℝ) 0
        = normalize normalQuantile sortWithCompanion 5 (sample5 : ℕ → ℝ) 1 →
      (sample5 : ℕ → ℝ) 0 = (sample5 : ℕ → ℝ) 1) :=
  normalize_order_preserving normalQuantile sortWithCompanion
    (fun n d s => sortWithCompanion_spec n d s) normalQuantile_strictMono 5 sample5 0 1
    (by decide) (by decide)

/-! ## The density estimators -/

/-- A summation loop over non-negative terms, started at a non-negative value, is non-negative. -/
theorem foldl_add_nonneg (f : ℕ → α) (hf : ∀ i, 0 ≤ f i) (l : List ℕ) :
    ∀ init : α, 0 ≤ init → 0 ≤ l.foldl (fun sum i => sum + f i) init := by
  induction l with
  | nil => intro init h; exact h
  | cons a l ih =>
    intro init h
    rw [List.foldl_cons]
    exact ih _ (add_nonneg h (hf a))

theorem PI_pos : (0 : α) < PI := by
  unfold PI
  norm_num

theorem kernelSum1_nonneg (nd : ℕ) (d : ℕ → ℝ) (var x : ℝ) :
    0 ≤ kernelSum1 Real.exp nd d var x :=
  foldl_add_nonneg _ (fun _ => le_of_lt (Real.exp_pos _)) _ 0 (le_refl _)

theorem kernelSum2_nonneg (nd : ℕ) (d0 d1 : ℕ → ℝ) (var0 var1 x0 x1 : ℝ) :
    0 ≤ kernelSum2 Real.exp nd d0 d1 var0 var1 x0 x1 :=
  foldl_add_nonneg _ (fun _ => le_of_lt (Real.exp_pos _)) _ 0 (le_refl _)

theorem ParzDens_2.new_sets_fields {B : Type} (exp sqrt inverse_normal_cdf : α → α)
    (qsortdsi : ℤ → ℤ → (ℕ → α) → (ℕ → ℕ) → (ℕ → α) × (ℕ → ℕ))
    (newBilinear : ℕ → (ℕ → α) → ℕ → (ℕ → α) → (ℕ → α) → ℤ → B) (mallocOk : Bool)
    (n_tset : ℕ) (tset0 tset1 : ℕ → α) (n_div : ℤ) :
    (ParzDens_2.new exp sqrt inverse_normal_cdf qsortdsi newBilinear mallocOk n_tset tset0 tset1
      n_div).nd = n_tset ∧
    (ParzDens_2.new exp sqrt inverse_normal_cdf qsortdsi newBilinear mallocOk n_tset tset0 tset1
      n_div).d0 = normalize inverse_normal_cdf qsortdsi n_tset tset0 ∧
    (ParzDens_2.new exp sqrt inverse_normal_cdf qsortdsi newBilinear mallocOk n_tset tset0 tset1
      n_div).d1 = normalize inverse_normal_cdf qsortdsi n_tset tset1 ∧
    (ParzDens_2.new exp sqrt inverse_normal_cdf qsortdsi newBilinear mallocOk n_tset tset0 tset1
      n_div).var0 = 2 / (n_div : α) * (2 / (n_div : α)) ∧
    (ParzDens_2.new exp sqrt inverse_normal_cdf qsortdsi newBilinear mallocOk n_tset tset0 tset1
      n_div).var1 = 2 / (n_div : α) * (2 / (n_div : α)) ∧
    (ParzDens_2.new exp sqrt inverse_normal_cdf qsortdsi newBilinear mallocOk n_tset tset0 tset1
      n_div).factor = 1 / ((n_tset : α) * 2 * PI
        * sqrt (2 / (n_div : α) * (2 / (n_div : α)) * (2 / (n_div : α) * (2 / (n_div : α))))) := by
  unfold ParzDens_2.new
  by_cases h : n_tset ≤ 100
  · simp only [if_pos h, and_self]
  · by_cases m : (!mallocOk) = true
    · simp only [if_neg h, if_pos m, and_self]
    · simp only [if_neg h, if_neg m, and_self]

/-- The exact path of `ParzDens_2`: at most 100 cases, or a failed grid allocation. -/
theorem ParzDens_2.new_exact_path {B : Type} (exp sqrt inverse_normal_cdf : α → α)
    (qsortdsi : ℤ → ℤ → (ℕ → α) → (ℕ → ℕ) → (ℕ → α) × (ℕ → ℕ))
    (newBilinear : ℕ → (ℕ → α) → ℕ → (ℕ → α) → (ℕ → α) → ℤ → B) (mallocOk : Bool)
    (n_tset : ℕ) (tset0 tset1 : ℕ → α) (n_div : ℤ) (h : n_tset ≤ 100 ∨ mallocOk = false) :
    (ParzDens_2.new exp sqrt inverse_normal_cdf qsortdsi newBilinear mallocOk n_tset tset0 tset1
      n_div).bilin = none := by
  unfold ParzDens_2.new
  by_cases c : n_tset ≤ 100
  · simp only [if_pos c]
  · have m : (!mallocOk) = true := by
      rcases h with h | h
      · exact absurd h c
      · rw [h]; rfl
    simp only [if_neg c, if_pos m]

/-- C3. Non-negativity of the exact kernel-sum density: for n >= 1 and n_div != 0,
`ParzDens_3::density` is >= 0 for every n, `ParzDens_1::density` is >= 0 when n <= 100, and
`ParzDens_2::density` is >= 0 when n <= 100 (and also when the grid allocation failed). -/
theorem exact_density_nonneg {B : Type} (inverse_normal_cdf : ℝ → ℝ)
    (qsortdsi : ℤ → ℤ → (ℕ → ℝ) → (ℕ → ℕ) → (ℕ → ℝ) × (ℕ → ℕ))
    (qsortds : ℤ → ℤ → (ℕ → ℝ) → (ℕ → ℝ) → (ℕ → ℝ) × (ℕ → ℝ))
    (newBilinear : ℕ → (ℕ → ℝ) → ℕ → (ℕ → ℝ) → (ℕ → ℝ) → ℤ → B)
    (evaluateBilinear : B → ℝ → ℝ → ℝ) (mallocOk : Bool)
    (n : ℕ) (n_div : ℤ) (_hn : 1 ≤ n) (_hdiv : n_div ≠ 0) (tset0 tset1 tset2 : ℕ → ℝ)
    (x0 x1 x2 : ℝ) :
    0 ≤ (ParzDens_3.new Real.sqrt inverse_normal_cdf qsortdsi n tset0 tset1 tset2 n_div).density
          Real.exp x0 x1 x2 ∧
    (n ≤ 100 →
      0 ≤ (ParzDens_1.new Real.exp Real.sqrt inverse_normal_cdf qsortdsi qsortds n tset0
            n_div).density Real.exp x0) ∧
    (n ≤ 100 ∨ mallocOk = false →
      0 ≤ (ParzDens_2.new Real.exp Real.sqrt inverse_normal_cdf qsortdsi newBilinear mallocOk n
            tset0 tset1 n_div).density Real.exp evaluateBilinear x0 x1) := by
  have hpi : (0 : ℝ) < PI := PI_pos
  have hn0 : (0 : ℝ) ≤ (n : ℝ) := Nat.cast_nonneg n
  refine ⟨?_, ?_, ?_⟩
  · unfold ParzDens_3.density ParzDens_3.new
    apply mul_nonneg
    · exact foldl_add_nonneg _ (fun _ => le_of_lt (Real.exp_pos _)) _ 0 (le_refl _)
    · simp only
      apply div_nonneg zero_le_one
      have := Real.sqrt_nonneg (2 * PI)
      have := Real.sqrt_nonneg (2 / (n_div : ℝ) * (2 / (n_div : ℝ)) * (2 / (n_div : ℝ)
        * (2 / (n_div : ℝ))) * (2 / (n_div : ℝ) * (2 / (n_div : ℝ))))
      positivity
  · intro h
    unfold ParzDens_1.density
    rw [ParzDens_1.new_none _ _ _ _ _ _ _ _ h]
    simp only
    apply mul_nonneg (kernelSum1_nonneg _ _ _ _)
    rw [(ParzDens_1.new_fields Real.exp Real.sqrt inverse_normal_cdf qsortdsi qsortds n tset0
      n_div).2.2.2.1]
    apply div_nonneg zero_le_one
    exact mul_nonneg hn0 (Real.sqrt_nonneg _)
  · intro h
    unfold ParzDens_2.density
    rw [ParzDens_2.new_exact_path _ _ _ _ _ _ _ _ _ _ h]
    simp only
    apply mul_nonneg (kernelSum2_nonneg _ _ _ _ _ _ _)
    rw [(ParzDens_2.new_sets_fields Real.exp Real.sqrt inverse_normal_cdf qsortdsi newBilinear mallocOk
      n tset0 tset1 n_div).2.2.2.2.2]
    apply div_nonneg zero_le_one
    have := Real.sqrt_nonneg (2 / (n_div : ℝ) * (2 / (n_div : ℝ))
      * (2 / (n_div : ℝ) * (2 / (n_div : ℝ))))
    positivity

theorem exact_density_nonneg_witness :
    0 ≤ (ParzDens_3.new Real.sqrt normalQuantile sortWithCompanion 5 sample5 sample5 sample5
          5).density Real.exp 0 0 0 ∧
    (5 ≤ 100 →
      0 ≤ (ParzDens_1.new Real.exp Real.sqrt normalQuantile sortWithCompanion sortWithCompanion
            5 sample5 5).density Real.exp 0) ∧
    (5 ≤ 100 ∨ true = false →
      0 ≤ (ParzDens_2.new Real.exp Real.sqrt normalQuantile sortWithCompanion
            (fun _ _ _ _ _ _ => ()) true 5 sample5 sample5 5).density Real.exp
            (fun _ _ _ => 0) 0 0) :=
  exact_density_nonneg normalQuantile sortWithCompanion sortWithCompanion
    (fun _ _ _ _ _ _ => ()) (fun _ _ _ => 0) true 5 5 (by decide) (by decide) sample5 sample5
    sample5 0 0 0

/-- The three ways the constructors write the normalising constant, against the single
formula `(2*PI*v)^(d/2)`, for a non-negative bandwidth `v`. -/
theorem factor_forms (v : ℝ) (hv : 0 ≤ v) :
    Real.sqrt (2 * PI * v) = (2 * PI * v) ^ ((1 : ℝ) / 2) ∧
    2 * PI * Real.sqrt (v * v) = (2 * PI * v) ^ ((2 : ℝ) / 2) ∧
    2 * PI * Real.sqrt (2 * PI) * Real.sqrt (v * v * v) = (2 * PI * v) ^ ((3 : ℝ) / 2) := by
  have hpi : (0 : ℝ) < PI := PI_pos
  have h2 : (0 : ℝ) ≤ 2 * PI := by positivity
  have hx : (0 : ℝ) ≤ 2 * PI * v := by positivity
  refine ⟨Real.sqrt_eq_rpow _, ?_, ?_⟩
  · rw [Real.sqrt_mul_self hv, show ((2 : ℝ) / 2) = 1 by norm_num, Real.rpow_one]
  · rw [show ((3 : ℝ) / 2) = 1 + 1 / 2 by norm_num, Real.rpow_add' hx (by norm_num),
      Real.rpow_one, ← Real.sqrt_eq_rpow, Real.sqrt_mul h2 v,
      Real.sqrt_mul (mul_nonneg hv hv) v, Real.sqrt_mul_self hv]
    ring

/-- C9. Bandwidth and normalising factor: for n >= 1 and n_div >= 1 each estimator sets every
per-axis variance to `(2/n_div)^2` and its factor to `1 / (n * (2*PI*var)^(d/2))` with d = 1, 2, 3
for `ParzDens_1`, `ParzDens_2`, `ParzDens_3`; with n_div = 5 the variance is 0.16. -/
theorem bandwidth_and_factor {B : Type} (exp inverse_normal_cdf : ℝ → ℝ)
    (qsortdsi : ℤ → ℤ → (ℕ → ℝ) → (ℕ → ℕ) → (ℕ → ℝ) × (ℕ → ℕ))
    (qsortds : ℤ → ℤ → (ℕ → ℝ) → (ℕ → ℝ) → (ℕ → ℝ) × (ℕ → ℝ))
    (newBilinear : ℕ → (ℕ → ℝ) → ℕ → (ℕ → ℝ) → (ℕ → ℝ) → ℤ → B) (mallocOk : Bool)
    (n : ℕ) (n_div : ℤ) (_hn : 1 ≤ n) (_hdiv : 1 ≤ n_div) (tset0 tset1 tset2 : ℕ → ℝ)
    (p1 : ParzDens_1 ℝ) (p2 : ParzDens_2 ℝ B) (p3 : ParzDens_3 ℝ)
    (h1 : p1 = ParzDens_1.new exp Real.sqrt inverse_normal_cdf qsortdsi qsortds n tset0 n_div)
    (h2 : p2 = ParzDens_2.new exp Real.sqrt inverse_normal_cdf qsortdsi newBilinear mallocOk n
      tset0 tset1 n_div)
    (h3 : p3 = ParzDens_3.new Real.sqrt inverse_normal_cdf qsortdsi n tset0 tset1 tset2 n_div) :
    (p1.var = (2 / (n_div : ℝ)) ^ 2 ∧
      p1.factor = 1 / ((n : ℝ) * (2 * PI * (2 / (n_div : ℝ)) ^ 2) ^ ((1 : ℝ) / 2))) ∧
    (p2.var0 = (2 / (n_div : ℝ)) ^ 2 ∧ p2.var1 = (2 / (n_div : ℝ)) ^ 2 ∧
      p2.factor = 1 / ((n : ℝ) * (2 * PI * (2 / (n_div : ℝ)) ^ 2) ^ ((2 : ℝ) / 2))) ∧
    (p3.var0 = (2 / (n_div : ℝ)) ^ 2 ∧ p3.var1 = (2 / (n_div : ℝ)) ^ 2 ∧
      p3.var2 = (2 / (n_div : ℝ)) ^ 2 ∧
      p3.factor = 1 / ((n : ℝ) * (2 * PI * (2 / (n_div : ℝ)) ^ 2) ^ ((3 : ℝ) / 2))) ∧
    (n_div = 5 → p1.var = 0.16) := by
  have hv : (0 : ℝ) ≤ (2 / (n_div : ℝ)) ^ 2 := sq_nonneg _
  have hsq : 2 / (n_div : ℝ) * (2 / (n_div : ℝ)) = (2 / (n_div : ℝ)) ^ 2 := (sq _).symm
  obtain ⟨f1, f2, f3⟩ := factor_forms _ hv
  obtain ⟨_, _, a3, a4, _, _⟩ := ParzDens_1.new_fields exp Real.sqrt inverse_normal_cdf qsortdsi
    qsortds n tset0 n_div
  obtain ⟨_, _, _, b4, b5, b6⟩ := ParzDens_2.new_sets_fields exp Real.sqrt inverse_normal_cdf qsortdsi
    newBilinear mallocOk n tset0 tset1 n_div
  rw [← h1] at a3 a4
  rw [← h2] at b4 b5 b6
  rw [hsq] at a3 a4 b4 b5 b6
  refine ⟨⟨a3, ?_⟩, ⟨b4, b5, ?_⟩, ⟨?_, ?_, ?_, ?_⟩, ?_⟩
  · rw [a4, f1]
  · rw [b6, ← f2]
    ring_nf
  · rw [h3, ← hsq]; rfl
  · rw [h3, ← hsq]; rfl
  · rw [h3, ← hsq]; rfl
  · rw [← f3, h3, ← hsq]
    show 1 / ((n : ℝ) * 2 * PI * Real.sqrt (2 * PI) * Real.sqrt _) = _
    ring_nf
  · intro h5
    rw [a3, h5]
    norm_num

theorem bandwidth_and_factor_witness :
    (∃ p1 : ParzDens_1 ℝ,
      p1 = ParzDens_1.new Real.exp Real.sqrt normalQuantile sortWithCompanion sortWithCompanion
        5 sample5 5 ∧ p1.var = 0.16) :=
  ⟨_, rfl, (bandwidth_and_factor Real.exp normalQuantile sortWithCompanion sortWithCompanion
    (fun _ _ _ _ _ _ => ()) true 5 5 (by decide) (by decide) sample5 sample5 sample5 _ _ _
    rfl rfl rfl).2.2.2 rfl⟩

theorem grid1_first (low high : α) : grid1 low high 0 = low := by
  rw [grid1_lo low high 0 (by norm_num)]
  simp

theorem grid1_last (low high : α) : grid1 low high 1000 = high := by
  rw [show (1000 : ℕ) = 100 + 900 from rfl, grid1_hi low high 100 (by norm_num)]
  push_cast
  field_simp
  ring

theorem normalizeScatter_eq_quantileArg (inverse_normal_cdf : α → α) (nd : ℕ) (d : ℕ → α)
    (indices : ℕ → ℕ) :
    normalizeScatter inverse_normal_cdf nd d indices
      = (List.range nd).foldl
          (fun d i => Function.update d (indices i) (inverse_normal_cdf (quantileArg nd i))) d :=
  rfl

theorem normalizeScatter_congr (f g : α → α) (nd : ℕ)
    (h : ∀ i, i < nd → f (quantileArg nd i) = g (quantileArg nd i)) (d : ℕ → α)
    (indices : ℕ → ℕ) :
    normalizeScatter f nd d indices = normalizeScatter g nd d indices := by
  rw [normalizeScatter_eq_quantileArg, normalizeScatter_eq_quantileArg]
  apply List.foldl_ext
  intro a i hi
  rw [h i (List.mem_range.mp hi)]

theorem normalize_congr (f g : α → α)
    (qsortdsi : ℤ → ℤ → (ℕ → α) → (ℕ → ℕ) → (ℕ → α) × (ℕ → ℕ)) (nd : ℕ)
    (h : ∀ i, i < nd → f (quantileArg nd i) = g (quantileArg nd i)) (tset : ℕ → α) :
    normalize f qsortdsi nd tset = normalize g qsortdsi nd tset :=
  normalizeScatter_congr f g nd h _ _

/-- C19. For n >= 1 the argument `(i + 1) / (n + 1)` handed to `inverse_normal_cdf` at loop
index `i < n` is strictly between 0 and 1, the arguments are strictly increasing in `i` (hence
distinct), and the normalisation block of the three constructors uses no other value of
`inverse_normal_cdf`: two quantile functions that agree on the open interval (0,1) give the same
normalised array and the same `ParzDens_1`, `ParzDens_2`, `ParzDens_3` objects. -/
theorem quantile_called_inside_domain {B : Type} (nd : ℕ) (_hn : 1 ≤ nd) :
    (∀ (inverse_normal_cdf : α → α) (d : ℕ → α) (indices : ℕ → ℕ),
      normalizeScatter inverse_normal_cdf nd d indices
        = (List.range nd).foldl
            (fun d i => Function.update d (indices i) (inverse_normal_cdf (quantileArg nd i))) d) ∧
    (∀ i, i < nd → (0 : α) < quantileArg nd i ∧ (quantileArg nd i : α) < 1) ∧
    (∀ i j, i < j → j < nd → (quantileArg nd i : α) < quantileArg nd j) ∧
    (∀ i j, i < nd → j < nd → (quantileArg nd i : α) = quantileArg nd j → i = j) ∧
    (∀ (f g : α → α), (∀ p, 0 < p → p < 1 → f p = g p) →
      ∀ (exp sqrt : α → α) (qsortdsi : ℤ → ℤ → (ℕ → α) → (ℕ → ℕ) → (ℕ → α) × (ℕ → ℕ))
        (qsortds : ℤ → ℤ → (ℕ → α) → (ℕ → α) → (ℕ → α) × (ℕ → α))
        (newBilinear : ℕ → (ℕ → α) → ℕ → (ℕ → α) → (ℕ → α) → ℤ → B) (mallocOk : Bool)
        (tset0 tset1 tset2 : ℕ → α) (n_div : ℤ),
        normalize f qsortdsi nd tset0 = normalize g qsortdsi nd tset0 ∧
        ParzDens_1.new exp sqrt f qsortdsi qsortds nd tset0 n_div
          = ParzDens_1.new exp sqrt g qsortdsi qsortds nd tset0 n_div ∧
        ParzDens_2.new exp sqrt f qsortdsi newBilinear mallocOk nd tset0 tset1 n_div
          = ParzDens_2.new exp sqrt g qsortdsi newBilinear mallocOk nd tset0 tset1 n_div ∧
        ParzDens_3.new sqrt f qsortdsi nd tset0 tset1 tset2 n_div
          = ParzDens_3.new sqrt g qsortdsi nd tset0 tset1 tset2 n_div) := by
  refine ⟨fun _ _ _ => rfl, fun i hi => quantile_arg_bounds nd i hi,
    fun i j hij _ => quantile_arg_lt nd i j hij, ?_, ?_⟩
  · intro i j _ _ e
    rcases lt_trichotomy i j with h | h | h
    · exact absurd e (ne_of_lt (quantile_arg_lt nd i j h))
    · exact h
    · exact absurd e.symm (ne_of_lt (quantile_arg_lt nd j i h))
  · intro f g hfg exp sqrt qsortdsi qsortds newBilinear mallocOk tset0 tset1 tset2 n_div
    have key : ∀ tset : ℕ → α, normalize f qsortdsi nd tset = normalize g qsortdsi nd tset := by
      intro tset
      apply normalize_congr
      intro i hi
      exact hfg _ (quantile_arg_bounds nd i hi).1 (quantile_arg_bounds nd i hi).2
    refine ⟨key tset0, ?_, ?_, ?_⟩
    · unfold ParzDens_1.new
      simp only [key]
    · unfold ParzDens_2.new
      simp only [key]
    · unfold ParzDens_3.new
      simp only [key]

theorem quantile_called_inside_domain_witness :
    (∀ (inverse_normal_cdf : ℝ → ℝ) (d : ℕ → ℝ) (indices : ℕ → ℕ),
      normalizeScatter inverse_normal_cdf 5 d indices
        = (List.range 5).foldl
            (fun d i => Function.update d (indices i) (inverse_normal_cdf (quantileArg 5 i))) d) ∧
    (∀ i, i < 5 → (0 : ℝ) < quantileArg 5 i ∧ (quantileArg 5 i : ℝ) < 1) ∧
    (∀ i j, i < j → j < 5 → (quantileArg 5 i : ℝ) < quantileArg 5 j) ∧
    (∀ i j, i < 5 → j < 5 → (quantileArg 5 i : ℝ) = quantileArg 5 j → i = j) ∧
    (∀ (f g : ℝ → ℝ), (∀ p, 0 < p → p < 1 → f p = g p) →
      ∀ (exp sqrt : ℝ → ℝ) (qsortdsi : ℤ → ℤ → (ℕ → ℝ) → (ℕ → ℕ) → (ℕ → ℝ) × (ℕ → ℕ))
        (qsortds : ℤ → ℤ → (ℕ → ℝ) → (ℕ → ℝ) → (ℕ → ℝ) × (ℕ → ℝ))
        (newBilinear : ℕ → (ℕ → ℝ) → ℕ → (ℕ → ℝ) → (ℕ → ℝ) → ℤ → Unit) (mallocOk : Bool)
        (tset0 tset1 tset2 : ℕ → ℝ) (n_div : ℤ),
        normalize f qsortdsi 5 tset0 = normalize g qsortdsi 5 tset0 ∧
        ParzDens_1.new exp sqrt f qsortdsi qsortds 5 tset0 n_div
          = ParzDens_1.new exp sqrt g qsortdsi qsortds 5 tset0 n_div ∧
        ParzDens_2.new exp sqrt f qsortdsi newBilinear mallocOk 5 tset0 tset1 n_div
          = ParzDens_2.new exp sqrt g qsortdsi newBilinear mallocOk 5 tset0 tset1 n_div ∧
        ParzDens_3.new sqrt f qsortdsi 5 tset0 tset1 tset2 n_div
          = ParzDens_3.new sqrt g qsortdsi 5 tset0 tset1 tset2 n_div) :=
  quantile_called_inside_domain 5 (by decide)

/-! ## The elimination loop, step by step -/

theorem splineForward_eq_at (n : ℕ) (x y : ℕ → α) :
    splineForward n x y = splineForwardAt x y (n - 1) := rfl

theorem splineForwardAt_succ (x y : ℕ → α) (i : ℕ) (hi : 1 ≤ i) :
    splineForwardAt x y (i + 1) = splineForwardStep x y (splineForwardAt x y i) i := by
  obtain ⟨k, rfl⟩ : ∃ k, i = k + 1 := ⟨i - 1, by omega⟩
  unfold splineForwardAt
  rw [show k + 1 + 1 - 1 = k + 1 by omega, show k + 1 - 1 = k by omega, List.range'_1_concat,
    List.foldl_append, Nat.add_comm 1 k]
  rfl

theorem splineForwardAt_prev (x y : ℕ → α) (i : ℕ) :
    (splineForwardAt x y i).1 (i - 1) = fwdU x (i - 1) :=
  (forward_foldl x y (i - 1) (i - 1) (le_refl _)).1

/-- C18. For n >= 3 nodes with strictly increasing stored x, at every step `i` (1 <= i <= n-2)
of the elimination loop the ratio `temp` lies in (0,1), the previous coefficient `y2[i-1]` lies
in (-1,0], the pivot `p = temp * y2[i-1] + 2` lies in (1,2], and the three differences
`x[i+1]-x[i-1]`, `x[i+1]-x[i]`, `x[i]-x[i-1]` are positive; so no divisor of the loop is zero. -/
theorem CubicSpline.elimination_divisors_nonzero
    (qsortds : ℤ → ℤ → (ℕ → α) → (ℕ → α) → (ℕ → α) × (ℕ → α)) (n : ℕ) (xin yin : ℕ → α)
    (s : CubicSpline α) (hs : s = CubicSpline.new qsortds n xin yin) (hn : 3 ≤ n)
    (hx : StrictIncr n s.x) (i : ℕ) (h1 : 1 ≤ i) (h2 : i < n - 1) :
    s.y2 = splineBackward n (splineForwardAt s.x s.y (n - 1)) ∧
    splineForwardAt s.x s.y (i + 1) = splineForwardStep s.x s.y (splineForwardAt s.x s.y i) i ∧
    0 < (s.x i - s.x (i - 1)) / (s.x (i + 1) - s.x (i - 1)) ∧
    (s.x i - s.x (i - 1)) / (s.x (i + 1) - s.x (i - 1)) < 1 ∧
    -1 < (splineForwardAt s.x s.y i).1 (i - 1) ∧
    (splineForwardAt s.x s.y i).1 (i - 1) ≤ 0 ∧
    1 < (s.x i - s.x (i - 1)) / (s.x (i + 1) - s.x (i - 1))
          * (splineForwardAt s.x s.y i).1 (i - 1) + 2 ∧
    (s.x i - s.x (i - 1)) / (s.x (i + 1) - s.x (i - 1))
          * (splineForwardAt s.x s.y i).1 (i - 1) + 2 ≤ 2 ∧
    (s.x i - s.x (i - 1)) / (s.x (i + 1) - s.x (i - 1))
          * (splineForwardAt s.x s.y i).1 (i - 1) + 2 ≠ 0 ∧
    s.x (i + 1) - s.x (i - 1) ≠ 0 ∧ s.x (i + 1) - s.x i ≠ 0 ∧ s.x i - s.x (i - 1) ≠ 0 := by
  subst hs
  obtain ⟨k, rfl⟩ : ∃ k, i = k + 1 := ⟨i - 1, by omega⟩
  rw [splineForwardAt_prev]
  simp only [Nat.add_one_sub_one]
  have hk : k + 2 < n := by omega
  have a1 := hx k (by omega)
  have a2 := hx (k + 1) hk
  obtain ⟨t0, t1⟩ := temp_bounds a1 a2
  obtain ⟨u0, u1⟩ := fwdU_bounds hx k (by omega)
  obtain ⟨p0, p1⟩ := pivot_bounds hx k hk
  refine ⟨rfl, splineForwardAt_succ _ _ _ (by omega), t0, t1, u0, u1, p0, p1, ?_, ?_, ?_, ?_⟩
  · exact ne_of_gt (lt_trans zero_lt_one p0)
  · exact ne_of_gt (sub_pos.mpr (lt_trans a1 a2))
  · exact ne_of_gt (sub_pos.mpr a2)
  · exact ne_of_gt (sub_pos.mpr a1)

theorem CubicSpline.elimination_divisors_nonzero_witness :
    parabolaSpline.y2 = splineBackward 3 (splineForwardAt parabolaSpline.x parabolaSpline.y (3 - 1)) ∧
    splineForwardAt parabolaSpline.x parabolaSpline.y (1 + 1)
      = splineForwardStep parabolaSpline.x parabolaSpline.y
          (splineForwardAt parabolaSpline.x parabolaSpline.y 1) 1 ∧
    0 < (parabolaSpline.x 1 - parabolaSpline.x (1 - 1))
          / (parabolaSpline.x (1 + 1) - parabolaSpline.x (1 - 1)) ∧
    (parabolaSpline.x 1 - parabolaSpline.x (1 - 1))
          / (parabolaSpline.x (1 + 1) - parabolaSpline.x (1 - 1)) < 1 ∧
    -1 < (splineForwardAt parabolaSpline.x parabolaSpline.y 1).1 (1 - 1) ∧
    (splineForwardAt parabolaSpline.x parabolaSpline.y 1).1 (1 - 1) ≤ 0 ∧
    1 < (parabolaSpline.x 1 - parabolaSpline.x (1 - 1))
          / (parabolaSpline.x (1 + 1) - parabolaSpline.x (1 - 1))
          * (splineForwardAt parabolaSpline.x parabolaSpline.y 1).1 (1 - 1) + 2 ∧
    (parabolaSpline.x 1 - parabolaSpline.x (1 - 1))
          / (parabolaSpline.x (1 + 1) - parabolaSpline.x (1 - 1))
          * (splineForwardAt parabolaSpline.x parabolaSpline.y 1).1 (1 - 1) + 2 ≤ 2 ∧
    (parabolaSpline.x 1 - parabolaSpline.x (1 - 1))
          / (parabolaSpline.x (1 + 1) - parabolaSpline.x (1 - 1))
          * (splineForwardAt parabolaSpline.x parabolaSpline.y 1).1 (1 - 1) + 2 ≠ 0 ∧
    parabolaSpline.x (1 + 1) - parabolaSpline.x (1 - 1) ≠ 0 ∧
    parabolaSpline.x (1 + 1) - parabolaSpline.x 1 ≠ 0 ∧
    parabolaSpline.x 1 - parabolaSpline.x (1 - 1) ≠ 0 :=
  CubicSpline.elimination_divisors_nonzero sortWithCompanion 3 (fun i => (i : ℚ))
    (fun i => (i : ℚ) ^ 2) parabolaSpline rfl (by decide) parabolaSpline_strictIncr 1 (by decide)
    (by decide)

/-! ## The bisection loop, step by step -/

theorem bracket_unfold (x : ℕ → α) (xpt : α) (klo khi : ℕ) (h : khi > klo + 1) :
    bracket x xpt klo khi
      = bracket x xpt (bracketStep x xpt (klo, khi)).1 (bracketStep x xpt (klo, khi)).2 := by
  rw [bracket, if_pos h]
  unfold bracketStep
  by_cases hk : xpt < x ((khi + klo) / 2)
  · simp only [if_pos hk]
  · simp only [if_neg hk]

theorem bracketStep_bounds (x : ℕ → α) (xpt : α) (klo khi : ℕ) (h : khi > klo + 1) :
    klo ≤ (bracketStep x xpt (klo, khi)).1 ∧
    (bracketStep x xpt (klo, khi)).1 < (bracketStep x xpt (klo, khi)).2 ∧
    (bracketStep x xpt (klo, khi)).2 ≤ khi ∧
    (bracketStep x xpt (klo, khi)).2 - (bracketStep x xpt (klo, khi)).1 < khi - klo := by
  unfold bracketStep
  by_cases hk : xpt < x ((khi + klo) / 2)
  · simp only [if_pos hk]
    omega
  · simp only [if_neg hk]
    omega

/-- The loop stops after at most `khi - klo - 1` passes, with the pair `bracket` returns. -/
theorem bracket_iterate (x : ℕ → α) (xpt : α) :
    ∀ (d klo khi : ℕ), khi - klo = d →
      ∃ m, m ≤ d - 1 ∧ (bracketStep x xpt)^[m] (klo, khi) = bracket x xpt klo khi := by
  intro d
  induction d using Nat.strong_induction_on with
  | _ d ih =>
    intro klo khi hd
    by_cases h : khi > klo + 1
    · obtain ⟨b1, b2, b3, b4⟩ := bracketStep_bounds x xpt klo khi h
      obtain ⟨m, hm, e⟩ := ih _ (by omega) (bracketStep x xpt (klo, khi)).1
        (bracketStep x xpt (klo, khi)).2 rfl
      refine ⟨m + 1, by omega, ?_⟩
      rw [Function.iterate_succ_apply, bracket_unfold x xpt klo khi h, ← e]
    · exact ⟨0, Nat.zero_le _, (bracket_done x xpt klo khi h).symm⟩

/-- C14. For a spline with n >= 2 nodes and a query with `x[0] <= xpt <= x[n-1]`: every pass of
the loop with `khi > klo+1` keeps `klo < khi` inside the previous pair and strictly decreases
`khi - klo`; the loop stops after at most n-2 passes; and it stops with `khi = klo + 1 <= n-1`,
`x[klo] <= xpt <= x[khi]`, and `xpt < x[khi]` unless `khi = n-1`. -/
theorem CubicSpline.bisection_brackets (s : CubicSpline α) (hn : 2 ≤ s.n) (xpt : α)
    (h0 : s.x 0 ≤ xpt) (h1 : xpt ≤ s.x (s.n - 1)) :
    (∀ klo khi, khi > klo + 1 →
      klo ≤ (bracketStep s.x xpt (klo, khi)).1 ∧
      (bracketStep s.x xpt (klo, khi)).1 < (bracketStep s.x xpt (klo, khi)).2 ∧
      (bracketStep s.x xpt (klo, khi)).2 ≤ khi ∧
      (bracketStep s.x xpt (klo, khi)).2 - (bracketStep s.x xpt (klo, khi)).1 < khi - klo) ∧
    (∃ m, m ≤ s.n - 2 ∧ (bracketStep s.x xpt)^[m] (0, s.n - 1) = bracket s.x xpt 0 (s.n - 1)) ∧
    ¬ (bracket s.x xpt 0 (s.n - 1)).2 > (bracket s.x xpt 0 (s.n - 1)).1 + 1 ∧
    0 ≤ (bracket s.x xpt 0 (s.n - 1)).1 ∧
    (bracket s.x xpt 0 (s.n - 1)).2 = (bracket s.x xpt 0 (s.n - 1)).1 + 1 ∧
    (bracket s.x xpt 0 (s.n - 1)).2 ≤ s.n - 1 ∧
    s.x (bracket s.x xpt 0 (s.n - 1)).1 ≤ xpt ∧
    xpt ≤ s.x (bracket s.x xpt 0 (s.n - 1)).2 ∧
    ((bracket s.x xpt 0 (s.n - 1)).2 ≠ s.n - 1 → xpt < s.x (bracket s.x xpt 0 (s.n - 1)).2) := by
  obtain ⟨a1, a2, a3, a4, a5, a6⟩ := bracket_spec s.x xpt (s.n - 1) 0 (s.n - 1) rfl (by omega)
  obtain ⟨m, hm, e⟩ := bracket_iterate s.x xpt (s.n - 1) 0 (s.n - 1) rfl
  exact ⟨fun klo khi h => bracketStep_bounds s.x xpt klo khi h, ⟨m, by omega, e⟩, by omega,
    Nat.zero_le _, a2, a3, a4 h0, a5 h1, a6⟩

/-- On the nodes `(0,0), (1,1), (2,2)` the query 0.5 lies in range. -/
theorem lineSpline_half_in_range :
    lineSpline.x 0 ≤ 0.5 ∧ (0.5 : ℚ) ≤ lineSpline.x (lineSpline.n - 1) := by
  constructor
  · rw [(lineSpline_nodes 0 (by decide)).1]; norm_num
  · show (0.5 : ℚ) ≤ lineSpline.x 2
    rw [(lineSpline_nodes 2 (by decide)).1]; norm_num

theorem CubicSpline.bisection_brackets_witness :
    (∀ klo khi, khi > klo + 1 →
      klo ≤ (bracketStep lineSpline.x 0.5 (klo, khi)).1 ∧
      (bracketStep lineSpline.x 0.5 (klo, khi)).1 < (bracketStep lineSpline.x 0.5 (klo, khi)).2 ∧
      (bracketStep lineSpline.x 0.5 (klo, khi)).2 ≤ khi ∧
      (bracketStep lineSpline.x 0.5 (klo, khi)).2 - (bracketStep lineSpline.x 0.5 (klo, khi)).1
        < khi - klo) ∧
    (∃ m, m ≤ lineSpline.n - 2 ∧ (bracketStep lineSpline.x 0.5)^[m] (0, lineSpline.n - 1)
      = bracket lineSpline.x 0.5 0 (lineSpline.n - 1)) ∧
    ¬ (bracket lineSpline.x 0.5 0 (lineSpline.n - 1)).2
        > (bracket lineSpline.x 0.5 0 (lineSpline.n - 1)).1 + 1 ∧
    0 ≤ (bracket lineSpline.x 0.5 0 (lineSpline.n - 1)).1 ∧
    (bracket lineSpline.x 0.5 0 (lineSpline.n - 1)).2
      = (bracket lineSpline.x 0.5 0 (lineSpline.n - 1)).1 + 1 ∧
    (bracket lineSpline.x 0.5 0 (lineSpline.n - 1)).2 ≤ lineSpline.n - 1 ∧
    lineSpline.x (bracket lineSpline.x 0.5 0 (lineSpline.n - 1)).1 ≤ 0.5 ∧
    0.5 ≤ lineSpline.x (bracket lineSpline.x 0.5 0 (lineSpline.n - 1)).2 ∧
    ((bracket lineSpline.x 0.5 0 (lineSpline.n - 1)).2 ≠ lineSpline.n - 1 →
      0.5 < lineSpline.x (bracket lineSpline.x 0.5 0 (lineSpline.n - 1)).2) :=
  CubicSpline.bisection_brackets lineSpline (by decide) 0.5 lineSpline_half_in_range.1
    lineSpline_half_in_range.2

/-! ## The divisor of `evaluate` -/

theorem CubicSpline.evaluate_eq_dist (s : CubicSpline α) (xpt : α) (h0 : ¬ xpt < s.x 0)
    (h : ¬ xpt > s.x (s.n - 1)) :
    s.evaluate xpt =
      (s.x (bracket s.x xpt 0 (s.n - 1)).2 - xpt) / s.dist xpt
          * s.y (bracket s.x xpt 0 (s.n - 1)).1
      + (xpt - s.x (bracket s.x xpt 0 (s.n - 1)).1) / s.dist xpt
          * s.y (bracket s.x xpt 0 (s.n - 1)).2
      + ((s.x (bracket s.x xpt 0 (s.n - 1)).2 - xpt) / s.dist xpt
          * ((s.x (bracket s.x xpt 0 (s.n - 1)).2 - xpt) / s.dist xpt
            * ((s.x (bracket s.x xpt 0 (s.n - 1)).2 - xpt) / s.dist xpt) - 1)
          * s.y2 (bracket s.x xpt 0 (s.n - 1)).1
        + (xpt - s.x (bracket s.x xpt 0 (s.n - 1)).1) / s.dist xpt
          * ((xpt - s.x (bracket s.x xpt 0 (s.n - 1)).1) / s.dist xpt
            * ((xpt - s.x (bracket s.x xpt 0 (s.n - 1)).1) / s.dist xpt) - 1)
          * s.y2 (bracket s.x xpt 0 (s.n - 1)).2)
        * s.dist xpt * s.dist xpt / 6 :=
  s.evaluate_inside xpt h0 h _ _ rfl

/-- C15. For a spline with at least one node and a query `xpt` with `x[0] <= xpt <= x[n-1]`
(the stored x sorted ascending, duplicates allowed), the divisor
`dist = x[khi] - x[klo] + 1e-60` of `evaluate` is at least `1e-60`, hence strictly positive, also
when the two bracketing nodes coincide; `evaluate` divides by `dist` only. -/
theorem CubicSpline.dist_positive (s : CubicSpline α) (hn : 1 ≤ s.n)
    (_hsorted : ∀ i, i + 1 < s.n → s.x i ≤ s.x (i + 1)) (xpt : α)
    (h0 : s.x 0 ≤ xpt) (h1 : xpt ≤ s.x (s.n - 1)) :
    s.dist xpt = s.x (bracket s.x xpt 0 (s.n - 1)).2 - s.x (bracket s.x xpt 0 (s.n - 1)).1
      + 1.e-60 ∧
    1.e-60 ≤ s.dist xpt ∧ 0 < s.dist xpt ∧ s.dist xpt ≠ 0 ∧
    s.evaluate xpt =
      (s.x (bracket s.x xpt 0 (s.n - 1)).2 - xpt) / s.dist xpt
          * s.y (bracket s.x xpt 0 (s.n - 1)).1
      + (xpt - s.x (bracket s.x xpt 0 (s.n - 1)).1) / s.dist xpt
          * s.y (bracket s.x xpt 0 (s.n - 1)).2
      + ((s.x (bracket s.x xpt 0 (s.n - 1)).2 - xpt) / s.dist xpt
          * ((s.x (bracket s.x xpt 0 (s.n - 1)).2 - xpt) / s.dist xpt
            * ((s.x (bracket s.x xpt 0 (s.n - 1)).2 - xpt) / s.dist xpt) - 1)
          * s.y2 (bracket s.x xpt 0 (s.n - 1)).1
        + (xpt - s.x (bracket s.x xpt 0 (s.n - 1)).1) / s.dist xpt
          * ((xpt - s.x (bracket s.x xpt 0 (s.n - 1)).1) / s.dist xpt
            * ((xpt - s.x (bracket s.x xpt 0 (s.n - 1)).1) / s.dist xpt) - 1)
          * s.y2 (bracket s.x xpt 0 (s.n - 1)).2)
        * s.dist xpt * s.dist xpt / 6 := by
  have hle : s.x (bracket s.x xpt 0 (s.n - 1)).1 ≤ s.x (bracket s.x xpt 0 (s.n - 1)).2 := by
    rcases Nat.lt_or_ge 1 s.n with c | c
    · obtain ⟨_, _, _, a4, a5, _⟩ := bracket_spec s.x xpt (s.n - 1) 0 (s.n - 1) rfl (by omega)
      exact le_trans (a4 h0) (a5 h1)
    · rw [bracket_done s.x xpt 0 (s.n - 1) (by omega)]
      have : s.n - 1 = 0 := by omega
      rw [this]
  have hd : (1.e-60 : α) ≤ s.dist xpt := by
    unfold CubicSpline.dist
    linarith
  have hpos : 0 < s.dist xpt := lt_of_lt_of_le eps_pos hd
  exact ⟨rfl, hd, hpos, ne_of_gt hpos,
    s.evaluate_eq_dist xpt (not_lt.mpr h0) (not_lt.mpr h1)⟩

/-! ## ParzDens_1: the three segments of the grid -/

theorem std_bounds (n_div : ℤ) (h : 1 ≤ n_div) :
    (0 : α) < 2 / (n_div : α) ∧ 2 / (n_div : α) ≤ 2 := by
  have h0 : (0 : α) < (n_div : α) := by exact_mod_cast (by omega : 0 < n_div)
  have h1 : (1 : α) ≤ (n_div : α) := by exact_mod_cast h
  refine ⟨by positivity, ?_⟩
  rw [div_le_iff₀ h0]
  linarith

/-- First segment, `c` standing for the loop index `i`. -/
theorem lo_segment_bounds (std c : α) (h0 : 0 < std) (hc0 : 0 ≤ c) (hc : c ≤ 99) :
    -(3 + 3 * std) ≤ -(3 + 3 * std) + c * ((-1.5 - -(3 + 3 * std)) / 100) ∧
    -(3 + 3 * std) + c * ((-1.5 - -(3 + 3 * std)) / 100) < -1.5 := by
  have hs : 0 < (-1.5 - -(3 + 3 * std)) / 100 := by
    apply div_pos
    · norm_num
      linarith
    · norm_num
  have m0 := mul_nonneg hc0 hs.le
  have m1 := mul_le_mul_of_nonneg_right hc hs.le
  constructor
  · linarith
  · norm_num at m1 ⊢
    linarith

/-- Second segment, `c` standing for `i + 1`. -/
theorem mid_segment_bounds (std c : α) (h0 : 0 < std) (h2 : std ≤ 2) :
    (1 ≤ c → -(3 + 3 * std) + 99 * ((-1.5 - -(3 + 3 * std)) / 100)
      < (-(3 + 3 * std) + 99 * ((-1.5 - -(3 + 3 * std)) / 100))
        + c * ((1.5 - (-(3 + 3 * std) + 99 * ((-1.5 - -(3 + 3 * std)) / 100))) / 801)) ∧
    (c ≤ 800 → (-(3 + 3 * std) + 99 * ((-1.5 - -(3 + 3 * std)) / 100))
        + c * ((1.5 - (-(3 + 3 * std) + 99 * ((-1.5 - -(3 + 3 * std)) / 100))) / 801) < 1.5) ∧
    (c ≤ 3 → (-(3 + 3 * std) + 99 * ((-1.5 - -(3 + 3 * std)) / 100))
        + c * ((1.5 - (-(3 + 3 * std) + 99 * ((-1.5 - -(3 + 3 * std)) / 100))) / 801) < -1.5) ∧
    (20 ≤ c → -1.5 ≤ (-(3 + 3 * std) + 99 * ((-1.5 - -(3 + 3 * std)) / 100))
        + c * ((1.5 - (-(3 + 3 * std) + 99 * ((-1.5 - -(3 + 3 * std)) / 100))) / 801)) := by
  have e : (1.5 - (-(3 + 3 * std) + 99 * ((-1.5 - -(3 + 3 * std)) / 100))) / 801
      = (301.5 + 3 * std) / 80100 := by
    norm_num
    ring
  have hs : 0 < (301.5 + 3 * std) / 80100 := by
    apply div_pos
    · linarith
    · norm_num
  rw [e]
  set S := (301.5 + 3 * std) / 80100 with hS
  have hS' : 80100 * S = 301.5 + 3 * std := by rw [hS]; field_simp
  refine ⟨fun h => ?_, fun h => ?_, fun h => ?_, fun h => ?_⟩
  · have := mul_le_mul_of_nonneg_right h hs.le
    linarith
  · have := mul_le_mul_of_nonneg_right h hs.le
    norm_num at hS' ⊢
    linarith
  · have := mul_le_mul_of_nonneg_right h hs.le
    norm_num at hS' ⊢
    linarith
  · have := mul_le_mul_of_nonneg_right h hs.le
    norm_num at hS' ⊢
    linarith

/-- Third segment, `c` standing for `i + 1`. -/
theorem hi_segment_bounds (std c : α) (h0 : 0 < std) (hc1 : 1 ≤ c) (hc : c ≤ 101) :
    1.5 ≤ ((-(3 + 3 * std) + 99 * ((-1.5 - -(3 + 3 * std)) / 100))
        + 800 * ((1.5 - (-(3 + 3 * std) + 99 * ((-1.5 - -(3 + 3 * std)) / 100))) / 801))
      + c * ((3 + 3 * std - ((-(3 + 3 * std) + 99 * ((-1.5 - -(3 + 3 * std)) / 100))
        + 800 * ((1.5 - (-(3 + 3 * std) + 99 * ((-1.5 - -(3 + 3 * std)) / 100))) / 801))) / 101) ∧
    ((-(3 + 3 * std) + 99 * ((-1.5 - -(3 + 3 * std)) / 100))
        + 800 * ((1.5 - (-(3 + 3 * std) + 99 * ((-1.5 - -(3 + 3 * std)) / 100))) / 801))
      + c * ((3 + 3 * std - ((-(3 + 3 * std) + 99 * ((-1.5 - -(3 + 3 * std)) / 100))
        + 800 * ((1.5 - (-(3 + 3 * std) + 99 * ((-1.5 - -(3 + 3 * std)) / 100))) / 801))) / 101)
      ≤ 3 + 3 * std := by
  have e1 : (-(3 + 3 * std) + 99 * ((-1.5 - -(3 + 3 * std)) / 100))
        + 800 * ((1.5 - (-(3 + 3 * std) + 99 * ((-1.5 - -(3 + 3 * std)) / 100))) / 801)
      = 1.5 - (301.5 + 3 * std) / 80100 := by
    norm_num
    ring
  rw [e1]
  set S := (301.5 + 3 * std) / 80100 with hS
  have hS' : 80100 * S = 301.5 + 3 * std := by rw [hS]; field_simp
  have ht : 0 < (3 + 3 * std - (1.5 - S)) / 101 := by
    apply div_pos
    · norm_num at hS' ⊢
      linarith
    · norm_num
  set T := (3 + 3 * std - (1.5 - S)) / 101 with hT
  have hT' : 101 * T = 3 + 3 * std - (1.5 - S) := by rw [hT]; field_simp
  have m0 := mul_le_mul_of_nonneg_right hc1 ht.le
  have m1 := mul_le_mul_of_nonneg_right hc ht.le
  constructor
  · norm_num at hS' hT' ⊢
    linarith
  · norm_num at hS' hT' ⊢
    linarith

/-- Where the 1001 abscissas lie, for `low = -(3 + 3*std)`, `high = 3 + 3*std`, `0 < std <= 2`. -/
theorem grid1_segments (std : α) (h0 : 0 < std) (h2 : std ≤ 2) :
    (∀ i, i < 100 → -(3 + 3 * std) ≤ grid1 (-(3 + 3 * std)) (3 + 3 * std) i ∧
      grid1 (-(3 + 3 * std)) (3 + 3 * std) i < -1.5) ∧
    (∀ i, 100 ≤ i → i < 900 →
      grid1 (-(3 + 3 * std)) (3 + 3 * std) 99 < grid1 (-(3 + 3 * std)) (3 + 3 * std) i ∧
      grid1 (-(3 + 3 * std)) (3 + 3 * std) i < 1.5) ∧
    (∀ i, 100 ≤ i → i ≤ 102 → grid1 (-(3 + 3 * std)) (3 + 3 * std) i < -1.5) ∧
    (∀ i, 119 ≤ i → i < 900 → -1.5 ≤ grid1 (-(3 + 3 * std)) (3 + 3 * std) i) ∧
    (∀ i, 900 ≤ i → i < 1001 → 1.5 ≤ grid1 (-(3 + 3 * std)) (3 + 3 * std) i ∧
      grid1 (-(3 + 3 * std)) (3 + 3 * std) i ≤ 3 + 3 * std) := by
  refine ⟨?_, ?_, ?_, ?_, ?_⟩
  · intro i hi
    rw [grid1_lo _ _ i hi]
    exact lo_segment_bounds std _ h0 (Nat.cast_nonneg i) (by exact_mod_cast (by omega : i ≤ 99))
  · intro i h100 h900
    obtain ⟨k, rfl⟩ : ∃ k, i = k + 100 := ⟨i - 100, by omega⟩
    rw [grid1_mid _ _ k (by omega), grid1_lo _ _ 99 (by omega)]
    obtain ⟨b1, b2, _, _⟩ := mid_segment_bounds std ((k + 1 : ℕ) : α) h0 h2
    refine ⟨?_, b2 (by exact_mod_cast (by omega : k + 1 ≤ 800))⟩
    have := b1 (by exact_mod_cast (by omega : 1 ≤ k + 1))
    simpa using this
  · intro i h100 h102
    obtain ⟨k, rfl⟩ : ∃ k, i = k + 100 := ⟨i - 100, by omega⟩
    rw [grid1_mid _ _ k (by omega)]
    exact (mid_segment_bounds std ((k + 1 : ℕ) : α) h0 h2).2.2.1
      (by exact_mod_cast (by omega : k + 1 ≤ 3))
  · intro i h119 h900
    obtain ⟨k, rfl⟩ : ∃ k, i = k + 100 := ⟨i - 100, by omega⟩
    rw [grid1_mid _ _ k (by omega)]
    exact (mid_segment_bounds std ((k + 1 : ℕ) : α) h0 h2).2.2.2
      (by exact_mod_cast (by omega : 20 ≤ k + 1))
  · intro i h900 h1001
    obtain ⟨k, rfl⟩ : ∃ k, i = k + 900 := ⟨i - 900, by omega⟩
    rw [grid1_hi _ _ k (by omega)]
    exact hi_segment_bounds std ((k + 1 : ℕ) : α) h0
      (by exact_mod_cast (by omega : 1 ≤ k + 1)) (by exact_mod_cast (by omega : k + 1 ≤ 101))

/-- C11 (as amended). For n > 100 and n_div >= 1, with `high = 3 + 3*(2/n_div)` and `low = -high`,
the constructor hands `CubicSpline` the 1001 grid nodes, of which nodes 0..99 lie in
`[low, -1.5)` with node 0 equal to `low`; nodes 100..899 lie strictly between node 99 and 1.5,
nodes 100, 101, 102 still being below -1.5 and nodes 119..899 lying in `[-1.5, 1.5)`; and nodes
900..1000 lie in `[1.5, high]` with node 1000 equal to `high`. -/
theorem ParzDens_1.grid_three_segments (exp sqrt inverse_normal_cdf : α → α)
    (qsortdsi : ℤ → ℤ → (ℕ → α) → (ℕ → ℕ) → (ℕ → α) × (ℕ → ℕ))
    (qsortds : ℤ → ℤ → (ℕ → α) → (ℕ → α) → (ℕ → α) × (ℕ → α))
    (n : ℕ) (tset : ℕ → α) (n_div : ℤ) (p : ParzDens_1 α)
    (hp : p = ParzDens_1.new exp sqrt inverse_normal_cdf qsortdsi qsortds n tset n_div)
    (hn : 100 < n) (hdiv : 1 ≤ n_div) :
    p.high = 3 + 3 * (2 / (n_div : α)) ∧ p.low = -p.high ∧
    p.spline = some (CubicSpline.new qsortds 1001 (grid1 p.low p.high)
      (gridValues1 exp p.nd p.d p.var p.factor (grid1 p.low p.high))) ∧
    grid1 p.low p.high 0 = p.low ∧
    (∀ i, i < 100 → p.low ≤ grid1 p.low p.high i ∧ grid1 p.low p.high i < -1.5) ∧
    (∀ i, 100 ≤ i → i < 900 →
      grid1 p.low p.high 99 < grid1 p.low p.high i ∧ grid1 p.low p.high i < 1.5) ∧
    (∀ i, 100 ≤ i → i ≤ 102 → grid1 p.low p.high i < -1.5) ∧
    (∀ i, 119 ≤ i → i < 900 → -1.5 ≤ grid1 p.low p.high i) ∧
    (∀ i, 900 ≤ i → i < 1001 → 1.5 ≤ grid1 p.low p.high i ∧ grid1 p.low p.high i ≤ p.high) ∧
    grid1 p.low p.high 1000 = p.high := by
  have hspl := ParzDens_1.new_spline exp sqrt inverse_normal_cdf qsortdsi qsortds n tset n_div hn
  obtain ⟨_, _, _, _, hhigh, hlow⟩ := ParzDens_1.new_fields exp sqrt inverse_normal_cdf qsortdsi
    qsortds n tset n_div
  rw [← hp] at hspl hhigh hlow
  obtain ⟨s0, s2⟩ := @std_bounds α _ n_div hdiv
  obtain ⟨g1, g2, g3, g4, g5⟩ := grid1_segments (2 / (n_div : α)) s0 s2
  rw [← hlow, ← hhigh] at g1 g2 g3 g4 g5
  exact ⟨hhigh, by rw [hlow, hhigh], hspl, grid1_first _ _, g1, g2, g3, g4, g5, grid1_last _ _⟩

theorem ParzDens_1.grid_three_segments_witness :
    ∃ p : ParzDens_1 ℝ,
      p = ParzDens_1.new Real.exp Real.sqrt normalQuantile sortWithCompanion sortWithCompanion
        101 (fun i => (i : ℝ)) 5 ∧
      p.high = 3 + 3 * (2 / ((5 : ℤ) : ℝ)) ∧ p.low = -p.high ∧
      p.spline = some (CubicSpline.new sortWithCompanion 1001 (grid1 p.low p.high)
        (gridValues1 Real.exp p.nd p.d p.var p.factor (grid1 p.low p.high))) ∧
      grid1 p.low p.high 0 = p.low ∧
      (∀ i, i < 100 → p.low ≤ grid1 p.low p.high i ∧ grid1 p.low p.high i < -1.5) ∧
      (∀ i, 100 ≤ i → i < 900 →
        grid1 p.low p.high 99 < grid1 p.low p.high i ∧ grid1 p.low p.high i < 1.5) ∧
      (∀ i, 100 ≤ i → i ≤ 102 → grid1 p.low p.high i < -1.5) ∧
      (∀ i, 119 ≤ i → i < 900 → -1.5 ≤ grid1 p.low p.high i) ∧
      (∀ i, 900 ≤ i → i < 1001 → 1.5 ≤ grid1 p.low p.high i ∧ grid1 p.low p.high i ≤ p.high) ∧
      grid1 p.low p.high 1000 = p.high :=
  ⟨_, rfl, ParzDens_1.grid_three_segments Real.exp Real.sqrt normalQuantile sortWithCompanion
    sortWithCompanion 101 (fun i => (i : ℝ)) 5 _ rfl (by decide) (by decide)⟩

/-- C11 fails as stated: with 101 cases and n_div = 5 grid node 100, the first node of the
second segment, is below -1.5. -/
theorem ParzDens_1.grid_node_100_below :
    grid1
      (ParzDens_1.new Real.exp Real.sqrt normalQuantile sortWithCompanion sortWithCompanion
        101 (fun i => (i : ℝ)) 5).low
      (ParzDens_1.new Real.exp Real.sqrt normalQuantile sortWithCompanion sortWithCompanion
        101 (fun i => (i : ℝ)) 5).high 100 < -1.5 := by
  obtain ⟨_, _, _, _, hhigh, hlow⟩ := ParzDens_1.new_fields Real.exp Real.sqrt normalQuantile
    sortWithCompanion sortWithCompanion 101 (fun i => (i : ℝ)) 5
  rw [hhigh, hlow]
  obtain ⟨s0, s2⟩ := @std_bounds ℝ _ 5 (by decide)
  exact (grid1_segments (2 / ((5 : ℤ) : ℝ)) s0 s2).2.2.1 100 (le_refl _) (by decide)

/-- C17. For n_div >= 1 the 1001 abscissas built by the constructor satisfy `x[i] < x[i+1]` for
0 <= i < 1000, `x[0] = low`, `x[1000] = high`; they are pairwise distinct and in ascending
order, so a correct sorter leaves them in place: the spline built when n > 100 stores the grid
itself, node by node. -/
theorem ParzDens_1.grid_strictly_increasing (exp sqrt inverse_normal_cdf : α → α)
    (qsortdsi : ℤ → ℤ → (ℕ → α) → (ℕ → ℕ) → (ℕ → α) × (ℕ → ℕ))
    (qsortds : ℤ → ℤ → (ℕ → α) → (ℕ → α) → (ℕ → α) × (ℕ → α))
    (n : ℕ) (tset : ℕ → α) (n_div : ℤ) (p : ParzDens_1 α)
    (hp : p = ParzDens_1.new exp sqrt inverse_normal_cdf qsortdsi qsortds n tset n_div)
    (hdiv : 1 ≤ n_div) :
    (∀ i, i < 1000 → grid1 p.low p.high i < grid1 p.low p.high (i + 1)) ∧
    grid1 p.low p.high 0 = p.low ∧ grid1 p.low p.high 1000 = p.high ∧
    (∀ i j, i < j → j < 1001 → grid1 p.low p.high i < grid1 p.low p.high j) ∧
    (∀ i j, i < 1001 → j < 1001 → grid1 p.low p.high i = grid1 p.low p.high j → i = j) ∧
    (100 < n →
      (∀ (m : ℕ) (x y : ℕ → α), SortedWithCompanion m x y (qsortds 0 ((m : ℤ) - 1) x y)) →
      ∃ xin yin, p.spline = some (CubicSpline.new qsortds 1001 xin yin) ∧
        xin = grid1 p.low p.high ∧
        ∀ k, k < 1001 → (CubicSpline.new qsortds 1001 xin yin).x k = xin k ∧
          (CubicSpline.new qsortds 1001 xin yin).y k = yin k) := by
  obtain ⟨_, _, _, _, hhigh, hlow⟩ := ParzDens_1.new_fields exp sqrt inverse_normal_cdf qsortdsi
    qsortds n tset n_div
  rw [← hp] at hhigh hlow
  obtain ⟨b1, b2⟩ := @domain_bounds α _ n_div hdiv
  have hgrid : StrictIncr 1001 (grid1 p.low p.high) := by
    apply grid1_strictIncr
    · rw [hlow]; exact b1
    · rw [hhigh]; exact b2
  refine ⟨fun i hi => hgrid i (by omega), grid1_first _ _, grid1_last _ _,
    fun i j hij hj => hgrid.lt i j hij hj, ?_, ?_⟩
  · intro i j hi hj e
    rcases lt_trichotomy i j with h | h | h
    · exact absurd e (ne_of_lt (hgrid.lt i j h hj))
    · exact h
    · exact absurd e.symm (ne_of_lt (hgrid.lt j i h hi))
  · intro hn hsort
    have hspl := ParzDens_1.new_spline exp sqrt inverse_normal_cdf qsortdsi qsortds n tset n_div hn
    rw [← hp] at hspl
    exact ⟨_, _, hspl, rfl, fun k hk => (hsort 1001 (grid1 p.low p.high)
      (gridValues1 exp p.nd p.d p.var p.factor (grid1 p.low p.high))).eq_of_strictIncr hgrid k hk⟩

theorem ParzDens_1.grid_strictly_increasing_witness :
    ∃ p : ParzDens_1 ℝ,
      p = ParzDens_1.new Real.exp Real.sqrt normalQuantile sortWithCompanion sortWithCompanion
        101 (fun i => (i : ℝ)) 5 ∧
      (∀ i, i < 1000 → grid1 p.low p.high i < grid1 p.low p.high (i + 1)) ∧
      grid1 p.low p.high 0 = p.low ∧ grid1 p.low p.high 1000 = p.high ∧
      (∀ i j, i < j → j < 1001 → grid1 p.low p.high i < grid1 p.low p.high j) ∧
      (∀ i j, i < 1001 → j < 1001 → grid1 p.low p.high i = grid1 p.low p.high j → i = j) ∧
      ((100 : ℕ) < 101 →
        (∀ (m : ℕ) (x y : ℕ → ℝ),
          SortedWithCompanion m x y (sortWithCompanion 0 ((m : ℤ) - 1) x y)) →
        ∃ xin yin, p.spline = some (CubicSpline.new sortWithCompanion 1001 xin yin) ∧
          xin = grid1 p.low p.high ∧
          ∀ k, k < 1001 → (CubicSpline.new sortWithCompanion 1001 xin yin).x k = xin k ∧
            (CubicSpline.new sortWithCompanion 1001 xin yin).y k = yin k) :=
  ⟨_, rfl, ParzDens_1.grid_strictly_increasing Real.exp Real.sqrt normalQuantile
    sortWithCompanion sortWithCompanion 101 (fun i => (i : ℝ)) 5 _ rfl (by decide)⟩

/-! ## Rearranging the cases -/

theorem IndexPerm.image_lt {n : ℕ} {σ : ℕ → ℕ} (h : IndexPerm n σ) (i : ℕ) (hi : i < n) : σ i < n :=
  List.mem_range.mp (h.mem_iff.mp (List.mem_map.mpr ⟨i, List.mem_range.mpr hi, rfl⟩))

theorem IndexPerm.injective {n : ℕ} {σ : ℕ → ℕ} (h : IndexPerm n σ) (i j : ℕ) (hi : i < n)
    (hj : j < n) (e : σ i = σ j) : i = j :=
  List.inj_on_of_nodup_map (h.nodup_iff.mpr (List.nodup_range n)) (List.mem_range.mpr hi)
    (List.mem_range.mpr hj) e

theorem IndexPerm.map_perm {β : Type} {n : ℕ} {σ : ℕ → ℕ} (h : IndexPerm n σ) (f : ℕ → β) :
    ((List.range n).map fun i => f (σ i)).Perm ((List.range n).map f) := by
  have := h.map f
  rwa [List.map_map] at this

theorem PairwiseDistinct.comp {β : Type} {n : ℕ} {x : ℕ → β} (hx : PairwiseDistinct n x)
    {σ : ℕ → ℕ} (h : IndexPerm n σ) : PairwiseDistinct n (fun i => x (σ i)) := by
  intro i j hi hj e
  exact h.injective i j hi hj (hx _ _ (h.image_lt i hi) (h.image_lt j hj) e)

theorem StrictIncr.pairwiseDistinct {n : ℕ} {x : ℕ → α} (hx : StrictIncr n x) :
    PairwiseDistinct n x := by
  intro i j hi hj e
  rcases lt_trichotomy i j with h | h | h
  · exact absurd e (ne_of_lt (hx.lt i j h hj))
  · exact h
  · exact absurd e.symm (ne_of_lt (hx.lt j i h hi))

theorem foldl_add_eq_add_sum (f : ℕ → α) (l : List ℕ) :
    ∀ a : α, l.foldl (fun sum i => sum + f i) a = a + (l.map f).sum := by
  induction l with
  | nil => intro a; simp
  | cons b l ih =>
    intro a
    rw [List.foldl_cons, ih, List.map_cons, List.sum_cons, add_assoc]

/-- A running sum does not depend on the order in which the terms are added. -/
theorem foldl_add_perm (f : ℕ → α) {l l' : List ℕ} (h : l.Perm l') :
    l.foldl (fun sum i => sum + f i) 0 = l'.foldl (fun sum i => sum + f i) 0 := by
  rw [foldl_add_eq_add_sum, foldl_add_eq_add_sum, (h.map f).sum_eq]

/-- A running sum over cases whose terms depend on the case only through a value `d i`. -/
theorem foldl_add_values_perm (g : α → α) (n : ℕ) (d d' : ℕ → α)
    (h : ((List.range n).map d).Perm ((List.range n).map d')) :
    (List.range n).foldl (fun sum i => sum + g (d i)) 0
      = (List.range n).foldl (fun sum i => sum + g (d' i)) 0 := by
  rw [foldl_add_eq_add_sum, foldl_add_eq_add_sum]
  have := (h.map g).sum_eq
  rw [List.map_map, List.map_map] at this
  rw [show (fun i => g (d i)) = g ∘ d from rfl, show (fun i => g (d' i)) = g ∘ d' from rfl, this]

/-- A running sum over the cases, taken over rearranged cases. -/
theorem foldl_add_indexPerm (G : ℕ → α) {n : ℕ} {σ : ℕ → ℕ} (h : IndexPerm n σ) :
    (List.range n).foldl (fun sum i => sum + G (σ i)) 0
      = (List.range n).foldl (fun sum i => sum + G i) 0 := by
  rw [foldl_add_eq_add_sum, foldl_add_eq_add_sum, (h.map_perm G).sum_eq]

/-! ## The sorter contract: what is determined by the input -/

theorem SortedWithCompanion.data_perm {β : Type} {n : ℕ} {data : ℕ → α} {slave : ℕ → β}
    {out : (ℕ → α) × (ℕ → β)} (h : SortedWithCompanion n data slave out) :
    ((List.range n).map out.1).Perm ((List.range n).map data) := by
  have := h.1.map Prod.fst
  simpa [List.map_map, Function.comp_def] using this

theorem SortedWithCompanion.slave_perm {β : Type} {n : ℕ} {data : ℕ → α} {slave : ℕ → β}
    {out : (ℕ → α) × (ℕ → β)} (h : SortedWithCompanion n data slave out) :
    ((List.range n).map out.2).Perm ((List.range n).map slave) := by
  have := h.1.map Prod.snd
  simpa [List.map_map, Function.comp_def] using this

/-- The sorted data array is determined by the values handed in, whatever their order. -/
theorem SortedWithCompanion.data_unique {β γ : Type} {n : ℕ} {data data' : ℕ → α}
    {slave : ℕ → β} {slave' : ℕ → γ} {out : (ℕ → α) × (ℕ → β)} {out' : (ℕ → α) × (ℕ → γ)}
    (h : SortedWithCompanion n data slave out) (h' : SortedWithCompanion n data' slave' out')
    (hp : ((List.range n).map data').Perm ((List.range n).map data)) :
    ∀ k, k < n → out'.1 k = out.1 k := by
  have hs : ∀ (o : ℕ → α), (∀ i j, i ≤ j → j < n → o i ≤ o j) →
      ((List.range n).map o).Sorted (· ≤ ·) := by
    intro o ho
    rw [List.Sorted, List.pairwise_map]
    refine List.Pairwise.imp_of_mem ?_ (List.pairwise_lt_range n)
    intro a b _ hb hab
    exact ho a b (le_of_lt hab) (List.mem_range.mp hb)
  have heq := List.eq_of_perm_of_sorted ((h'.data_perm.trans hp).trans h.data_perm.symm)
    (hs out'.1 h'.mono) (hs out.1 h.mono)
  intro k hk
  exact List.map_inj_left.mp heq k (List.mem_range.mpr hk)

/-- Distinct values come back strictly increasing. -/
theorem SortedWithCompanion.strictIncr {β : Type} {n : ℕ} {data : ℕ → α} {slave : ℕ → β}
    {out : (ℕ → α) × (ℕ → β)} (h : SortedWithCompanion n data slave out)
    (hd : PairwiseDistinct n data) : StrictIncr n out.1 := by
  have hnd : ((List.range n).map out.1).Nodup := by
    refine h.data_perm.nodup_iff.mpr ?_
    refine List.Nodup.map_on ?_ (List.nodup_range n)
    intro a ha b hb e
    exact hd a b (List.mem_range.mp ha) (List.mem_range.mp hb) e
  intro i hi
  refine lt_of_le_of_ne (h.2 i hi) ?_
  intro e
  have := List.inj_on_of_nodup_map hnd (List.mem_range.mpr (by omega : i < n))
    (List.mem_range.mpr hi) e
  omega

/-- With pairwise distinct data, both sorted arrays are determined by the set of pairs handed
in: rearranging the input pairs does not change what the sorter leaves behind. -/
theorem SortedWithCompanion.pairs_unique {β : Type} {n : ℕ} {data : ℕ → α} {slave : ℕ → β}
    {σ : ℕ → ℕ} {out out' : (ℕ → α) × (ℕ → β)} (h : SortedWithCompanion n data slave out)
    (h' : SortedWithCompanion n (fun i => data (σ i)) (fun i => slave (σ i)) out')
    (hd : PairwiseDistinct n data) (hσ : IndexPerm n σ) :
    ∀ k, k < n → out'.1 k = out.1 k ∧ out'.2 k = out.2 k := by
  have hs : ∀ (o : (ℕ → α) × (ℕ → β)), StrictIncr n o.1 →
      ((List.range n).map fun i => (o.1 i, o.2 i)).Sorted (fun p q => p.1 < q.1) := by
    intro o ho
    rw [List.Sorted, List.pairwise_map]
    refine List.Pairwise.imp_of_mem ?_ (List.pairwise_lt_range n)
    intro a b _ hb hab
    exact ho.lt a b hab (List.mem_range.mp hb)
  haveI : IsAntisymm (α × β) (fun p q => p.1 < q.1) :=
    ⟨fun a b hab hba => absurd hab (not_lt.mpr (le_of_lt hba))⟩
  have hp : ((List.range n).map fun i => (out'.1 i, out'.2 i)).Perm
      ((List.range n).map fun i => (out.1 i, out.2 i)) :=
    (h'.1.trans (hσ.map_perm fun i => (data i, slave i))).trans h.1.symm
  have heq := List.eq_of_perm_of_sorted hp (hs out' (h'.strictIncr (hd.comp hσ)))
    (hs out (h.strictIncr hd))
  intro k hk
  have hk' := List.map_inj_left.mp heq k (List.mem_range.mpr hk)
  exact ⟨congrArg Prod.fst hk', congrArg Prod.snd hk'⟩

/-! ## The spline depends on the stored nodes only -/

theorem fwdU_congr {n : ℕ} {x x' : ℕ → α} (hx : ∀ i, i < n → x' i = x i) :
    ∀ j, j + 1 < n → fwdU x' j = fwdU x j := by
  intro j
  induction j with
  | zero => intro _; rfl
  | succ j ih =>
    intro hj
    rw [fwdU, fwdU, ih (by omega), hx j (by omega), hx (j + 1) (by omega), hx (j + 2) hj]

theorem fwdC_congr {n : ℕ} {x x' y y' : ℕ → α} (hx : ∀ i, i < n → x' i = x i)
    (hy : ∀ i, i < n → y' i = y i) : ∀ j, j + 1 < n → fwdC x' y' j = fwdC x y j := by
  intro j
  induction j with
  | zero => intro _; rfl
  | succ j ih =>
    intro hj
    rw [fwdC, fwdC, ih (by omega), fwdU_congr hx j (by omega), hx j (by omega),
      hx (j + 1) (by omega), hx (j + 2) hj, hy j (by omega), hy (j + 1) (by omega),
      hy (j + 2) hj]

/-- The second derivatives are computed from the first `n` stored nodes only. -/
theorem y2_congr {n : ℕ} {x x' y y' : ℕ → α} (hx : ∀ i, i < n → x' i = x i)
    (hy : ∀ i, i < n → y' i = y i) :
    ∀ i, i < n → splineBackward n (splineForward n x' y') i
      = splineBackward n (splineForward n x y) i := by
  have key : ∀ k, k < n → splineBackward n (splineForward n x' y') (n - 1 - k)
      = splineBackward n (splineForward n x y) (n - 1 - k) := by
    intro k
    induction k with
    | zero =>
      intro _
      rw [Nat.sub_zero, splineBackward_last, splineBackward_last]
    | succ k ih =>
      intro hk
      rw [splineBackward_rec n _ (n - 1 - (k + 1)) (by omega),
        splineBackward_rec n _ (n - 1 - (k + 1)) (by omega),
        show n - 1 - (k + 1) + 1 = n - 1 - k by omega, ih (by omega),
        splineForward_fst n x' y' _ (by omega), splineForward_fst n x y _ (by omega),
        splineForward_snd n x' y' _ (by omega), splineForward_snd n x y _ (by omega),
        fwdU_congr hx _ (by omega), fwdC_congr hx hy _ (by omega)]
  intro i hi
  have := key (n - 1 - i) (by omega)
  rwa [show n - 1 - (n - 1 - i) = i by omega] at this

/-- The bisection reads the cells `klo .. khi` only. -/
theorem bracket_congr (x x' : ℕ → α) (xpt : α) :
    ∀ (d klo khi : ℕ), khi - klo = d → (∀ i, klo ≤ i → i ≤ khi → x' i = x i) →
      bracket x' xpt klo khi = bracket x xpt klo khi := by
  intro d
  induction d using Nat.strong_induction_on with
  | _ d ih =>
    intro klo khi hd hx
    rw [bracket]
    conv_rhs => rw [bracket]
    by_cases h : khi > klo + 1
    · rw [if_pos h, if_pos h, hx ((khi + klo) / 2) (by omega) (by omega)]
      by_cases hk : xpt < x ((khi + klo) / 2)
      · rw [if_pos hk, if_pos hk]
        exact ih _ (by omega) klo _ rfl (fun i h1 h2 => hx i h1 (by omega))
      · rw [if_neg hk, if_neg hk]
        exact ih _ (by omega) _ khi rfl (fun i h1 h2 => hx i (by omega) h2)
    · rw [if_neg h, if_neg h]

/-- Two splines with the same node count and the same first `n` cells of `x`, `y`, `y2`
evaluate alike. -/
theorem CubicSpline.evaluate_congr (s s' : CubicSpline α) (hn : s'.n = s.n) (h1 : 1 ≤ s.n)
    (hx : ∀ i, i < s.n → s'.x i = s.x i) (hy : ∀ i, i < s.n → s'.y i = s.y i)
    (hy2 : ∀ i, i < s.n → s'.y2 i = s.y2 i) (xpt : α) : s'.evaluate xpt = s.evaluate xpt := by
  have hb : bracket s'.x xpt 0 (s.n - 1) = bracket s.x xpt 0 (s.n - 1) :=
    bracket_congr s.x s'.x xpt _ 0 (s.n - 1) rfl (fun i _ h2 => hx i (by omega))
  have hk : (bracket s.x xpt 0 (s.n - 1)).1 < s.n ∧ (bracket s.x xpt 0 (s.n - 1)).2 < s.n := by
    rcases Nat.lt_or_ge 1 s.n with c | c
    · obtain ⟨_, a2, a3, _, _, _⟩ := bracket_spec s.x xpt (s.n - 1) 0 (s.n - 1) rfl (by omega)
      omega
    · rw [bracket_done s.x xpt 0 (s.n - 1) (by omega)]
      simp only
      omega
  unfold CubicSpline.evaluate
  rw [hn, hb, hx 0 (by omega), hy 0 (by omega), hx (s.n - 1) (by omega), hy (s.n - 1) (by omega)]
  simp only [hx _ hk.1, hx _ hk.2, hy _ hk.1, hy _ hk.2, hy2 _ hk.1, hy2 _ hk.2]

/-- C13. For n >= 3 node pairs with pairwise distinct x and a correct sorter, the spline built
from any rearrangement of the pairs stores the same x, y and y2 in its n cells and has the same
`evaluate` function as the spline built from the pairs themselves; the stored x are strictly
increasing, and pairs handed in sorted by x are stored as they are. -/
theorem CubicSpline.new_order_independent
    (qsortds : ℤ → ℤ → (ℕ → α) → (ℕ → α) → (ℕ → α) × (ℕ → α))
    (hsort : ∀ (m : ℕ) (x y : ℕ → α), SortedWithCompanion m x y (qsortds 0 ((m : ℤ) - 1) x y))
    (n : ℕ) (hn : 3 ≤ n) (xin yin : ℕ → α) (hd : PairwiseDistinct n xin) (σ : ℕ → ℕ)
    (hσ : IndexPerm n σ) :
    (∀ i, i < n →
      (CubicSpline.new qsortds n (fun i => xin (σ i)) (fun i => yin (σ i))).x i
        = (CubicSpline.new qsortds n xin yin).x i ∧
      (CubicSpline.new qsortds n (fun i => xin (σ i)) (fun i => yin (σ i))).y i
        = (CubicSpline.new qsortds n xin yin).y i ∧
      (CubicSpline.new qsortds n (fun i => xin (σ i)) (fun i => yin (σ i))).y2 i
        = (CubicSpline.new qsortds n xin yin).y2 i) ∧
    (∀ xpt, (CubicSpline.new qsortds n (fun i => xin (σ i)) (fun i => yin (σ i))).evaluate xpt
      = (CubicSpline.new qsortds n xin yin).evaluate xpt) ∧
    StrictIncr n (CubicSpline.new qsortds n xin yin).x ∧
    (StrictIncr n xin → ∀ i, i < n →
      (CubicSpline.new qsortds n xin yin).x i = xin i ∧
      (CubicSpline.new qsortds n xin yin).y i = yin i) := by
  have hxy := (hsort n xin yin).pairs_unique (hsort n (fun i => xin (σ i)) (fun i => yin (σ i)))
    hd hσ
  have hx : ∀ i, i < n →
      (CubicSpline.new qsortds n (fun i => xin (σ i)) (fun i => yin (σ i))).x i
        = (CubicSpline.new qsortds n xin yin).x i := fun i hi => (hxy i hi).1
  have hy : ∀ i, i < n →
      (CubicSpline.new qsortds n (fun i => xin (σ i)) (fun i => yin (σ i))).y i
        = (CubicSpline.new qsortds n xin yin).y i := fun i hi => (hxy i hi).2
  have hy2 : ∀ i, i < n →
      (CubicSpline.new qsortds n (fun i => xin (σ i)) (fun i => yin (σ i))).y2 i
        = (CubicSpline.new qsortds n xin yin).y2 i := y2_congr hx hy
  refine ⟨fun i hi => ⟨hx i hi, hy i hi, hy2 i hi⟩, ?_, (hsort n xin yin).strictIncr hd, ?_⟩
  · intro xpt
    exact CubicSpline.evaluate_congr (CubicSpline.new qsortds n xin yin)
      (CubicSpline.new qsortds n (fun i => xin (σ i)) (fun i => yin (σ i))) rfl
      (by show 1 ≤ n; omega) hx hy hy2 xpt
  · intro hs i hi
    exact (hsort n xin yin).eq_of_strictIncr hs i hi

/-! ## The normalised sample as a set of quantiles -/

/-- Under the sorter contract the normalised values are the quantiles of the positions
`0 .. n-1`, in some order, whatever the sample. -/
theorem normalize_perm (inverse_normal_cdf : α → α)
    (qsortdsi : ℤ → ℤ → (ℕ → α) → (ℕ → ℕ) → (ℕ → α) × (ℕ → ℕ))
    (hsort : ∀ (n : ℕ) (d : ℕ → α) (s : ℕ → ℕ),
      SortedWithCompanion n d s (qsortdsi 0 ((n : ℤ) - 1) d s))
    (nd : ℕ) (tset : ℕ → α) :
    ((List.range nd).map (normalize inverse_normal_cdf qsortdsi nd tset)).Perm
      ((List.range nd).map fun k : ℕ => inverse_normal_cdf (quantileArg nd k)) := by
  have hs := hsort nd (normalizeInit nd tset).1 (normalizeInit nd tset).2
  have hinj : ∀ a b, a < nd → b < nd →
      (sortedOrder qsortdsi nd tset).2 a = (sortedOrder qsortdsi nd tset).2 b → a = b := by
    apply hs.slave_injective
    intro a b ha hb e
    rwa [normalizeInit_snd nd tset a ha, normalizeInit_snd nd tset b hb] at e
  have hval : ∀ k, k < nd →
      normalize inverse_normal_cdf qsortdsi nd tset ((sortedOrder qsortdsi nd tset).2 k)
        = inverse_normal_cdf (quantileArg nd k) := by
    intro k hk
    rw [normalize_eq]
    exact normalizeScatter_apply inverse_normal_cdf nd (sortedOrder qsortdsi nd tset).2 hinj nd
      (le_refl _) (sortedOrder qsortdsi nd tset).1 k hk
  have hidx : ((List.range nd).map (sortedOrder qsortdsi nd tset).2).Perm (List.range nd) := by
    have h1 := hs.slave_perm
    have h2 : (List.range nd).map (normalizeInit nd tset).2 = List.range nd := by
      conv_rhs => rw [← List.map_id (List.range nd)]
      apply List.map_congr_left
      intro a ha
      exact normalizeInit_snd nd tset a (List.mem_range.mp ha)
    rw [h2] at h1
    exact h1
  have h3 := hidx.map (normalize inverse_normal_cdf qsortdsi nd tset)
  rw [List.map_map] at h3
  have h4 : (List.range nd).map
      (normalize inverse_normal_cdf qsortdsi nd tset ∘ (sortedOrder qsortdsi nd tset).2)
      = (List.range nd).map fun k => inverse_normal_cdf (quantileArg nd k) := by
    apply List.map_congr_left
    intro a ha
    exact hval a (List.mem_range.mp ha)
  rw [h4] at h3
  exact h3.symm

theorem kernelSum1_perm (exp : α → α) (nd : ℕ) (d d' : ℕ → α) (var x : α)
    (h : ((List.range nd).map d).Perm ((List.range nd).map d')) :
    kernelSum1 exp nd d var x = kernelSum1 exp nd d' var x :=
  foldl_add_values_perm (fun z => exp (-0.5 * (x - z) * (x - z) / var)) nd d d' h

theorem gridValues1_congr (exp : α → α) (nd : ℕ) (d d' : ℕ → α) (var factor : α) (x : ℕ → α)
    (h : ∀ i, i < 1001 → kernelSum1 exp nd d var (x i) = kernelSum1 exp nd d' var (x i)) :
    gridValues1 exp nd d var factor x = gridValues1 exp nd d' var factor x := by
  funext j
  unfold gridValues1
  have e1 := foldl_update_range (fun i => factor * kernelSum1 exp nd d var (x i)) 0 1001
    (fun _ => 0) j
  have e2 := foldl_update_range (fun i => factor * kernelSum1 exp nd d' var (x i)) 0 1001
    (fun _ => 0) j
  simp only [Nat.add_zero] at e1 e2
  rw [e1, e2]
  by_cases c : 0 ≤ j ∧ j < 0 + 1001
  · rw [if_pos c, if_pos c, Nat.sub_zero, h j (by omega)]
  · rw [if_neg c, if_neg c]

/-- C16. Under the sorter contract, for a sample of size n >= 1 (ties or not) the normalised
values stored by `ParzDens_1` are, in some order, the n quantiles
`inverse_normal_cdf((k+1)/(n+1))`, k = 0..n-1; hence for two samples of the same size and the
same n_div, `density(x)` is the same at every x, on the exact path and on the spline path. -/
theorem ParzDens_1.density_ignores_sample (exp sqrt inverse_normal_cdf : α → α)
    (qsortdsi : ℤ → ℤ → (ℕ → α) → (ℕ → ℕ) → (ℕ → α) × (ℕ → ℕ))
    (qsortds : ℤ → ℤ → (ℕ → α) → (ℕ → α) → (ℕ → α) × (ℕ → α))
    (hsort : ∀ (n : ℕ) (d : ℕ → α) (s : ℕ → ℕ),
      SortedWithCompanion n d s (qsortdsi 0 ((n : ℤ) - 1) d s))
    (n : ℕ) (_hn : 1 ≤ n) (tset tset' : ℕ → α) (n_div : ℤ) :
    ((List.range n).map
        (ParzDens_1.new exp sqrt inverse_normal_cdf qsortdsi qsortds n tset n_div).d).Perm
      ((List.range n).map fun k : ℕ => inverse_normal_cdf (((k : α) + 1) / ((n : α) + 1))) ∧
    ∀ x, (ParzDens_1.new exp sqrt inverse_normal_cdf qsortdsi qsortds n tset n_div).density exp x
      = (ParzDens_1.new exp sqrt inverse_normal_cdf qsortdsi qsortds n tset' n_div).density
          exp x := by
  have hq : (fun k : ℕ => inverse_normal_cdf (((k : α) + 1) / ((n : α) + 1)))
      = fun k => inverse_normal_cdf (quantileArg n k) := by
    funext k
    unfold quantileArg
    push_cast
    rfl
  have hp := normalize_perm inverse_normal_cdf qsortdsi hsort n tset
  have hp' := normalize_perm inverse_normal_cdf qsortdsi hsort n tset'
  have hk : ∀ var x, kernelSum1 exp n (normalize inverse_normal_cdf qsortdsi n tset) var x
      = kernelSum1 exp n (normalize inverse_normal_cdf qsortdsi n tset') var x :=
    fun var x => kernelSum1_perm exp n _ _ var x (hp.trans hp'.symm)
  constructor
  · rw [(ParzDens_1.new_fields exp sqrt inverse_normal_cdf qsortdsi qsortds n tset n_div).2.1, hq]
    exact hp
  · intro x
    unfold ParzDens_1.density ParzDens_1.new
    by_cases c : n ≤ 100
    · simp only [if_pos c, hk]
    · simp only [if_neg c]
      rw [gridValues1_congr exp n _ (normalize inverse_normal_cdf qsortdsi n tset') _ _ _
        (fun i _ => hk _ _)]

theorem ParzDens_1.density_ignores_sample_witness :
    ((List.range 5).map
        (ParzDens_1.new Real.exp Real.sqrt normalQuantile sortWithCompanion sortWithCompanion 5
          (fun i => [3, 1, 3, 2, 1].getD i 0) 5).d).Perm
      ((List.range 5).map fun k : ℕ => normalQuantile (((k : ℝ) + 1) / (((5 : ℕ) : ℝ) + 1))) ∧
    ∀ x, (ParzDens_1.new Real.exp Real.sqrt normalQuantile sortWithCompanion sortWithCompanion 5
        (fun i => [3, 1, 3, 2, 1].getD i 0) 5).density Real.exp x
      = (ParzDens_1.new Real.exp Real.sqrt normalQuantile sortWithCompanion sortWithCompanion 5
          sample5 5).density Real.exp x :=
  ParzDens_1.density_ignores_sample Real.exp Real.sqrt normalQuantile sortWithCompanion
    sortWithCompanion (fun n d s => sortWithCompanion_spec n d s) 5 (by decide)
    (fun i => [3, 1, 3, 2, 1].getD i 0) sample5 5

/-! ## The rank transform and the order of the cases -/

/-- With pairwise distinct values, normalising the rearranged sample gives the rearranged
normalised sample. -/
theorem normalize_comp_perm (inverse_normal_cdf : α → α)
    (qsortdsi : ℤ → ℤ → (ℕ → α) → (ℕ → ℕ) → (ℕ → α) × (ℕ → ℕ))
    (hsort : ∀ (n : ℕ) (d : ℕ → α) (s : ℕ → ℕ),
      SortedWithCompanion n d s (qsortdsi 0 ((n : ℤ) - 1) d s))
    (n : ℕ) (tset : ℕ → α) (hd : PairwiseDistinct n tset) (σ : ℕ → ℕ) (hσ : IndexPerm n σ)
    (i : ℕ) (hi : i < n) :
    normalize inverse_normal_cdf qsortdsi n (fun k => tset (σ k)) i
      = normalize inverse_normal_cdf qsortdsi n tset (σ i) := by
  have hs := hsort n (normalizeInit n tset).1 (normalizeInit n tset).2
  have hs' := hsort n (normalizeInit n fun k => tset (σ k)).1
    (normalizeInit n fun k => tset (σ k)).2
  have hinit : (List.range n).map (normalizeInit n tset).1 = (List.range n).map tset :=
    List.map_congr_left fun a ha => normalizeInit_fst n tset a (List.mem_range.mp ha)
  have hinit' : (List.range n).map (normalizeInit n fun k => tset (σ k)).1
      = (List.range n).map fun k => tset (σ k) :=
    List.map_congr_left fun a ha => normalizeInit_fst n _ a (List.mem_range.mp ha)
  have hperm : ((List.range n).map (normalizeInit n fun k => tset (σ k)).1).Perm
      ((List.range n).map (normalizeInit n tset).1) := by
    rw [hinit, hinit']
    exact hσ.map_perm tset
  have hdata := hs.data_unique hs' hperm
  have hdist : PairwiseDistinct n (normalizeInit n tset).1 := by
    intro a b ha hb e
    rw [normalizeInit_fst n tset a ha, normalizeInit_fst n tset b hb] at e
    exact hd a b ha hb e
  have hincr := hs.strictIncr hdist
  obtain ⟨r', hr', _, e1', _, v'⟩ :=
    normalize_spec inverse_normal_cdf qsortdsi hsort n (fun k => tset (σ k)) i hi
  obtain ⟨r, hr, _, e1, _, v⟩ :=
    normalize_spec inverse_normal_cdf qsortdsi hsort n tset (σ i) (hσ.image_lt i hi)
  have hrr : r' = r := by
    have e : (sortedOrder qsortdsi n tset).1 r' = (sortedOrder qsortdsi n tset).1 r := by
      rw [e1]
      have := hdata r' hr'
      rw [show (qsortdsi 0 ((n : ℤ) - 1) (normalizeInit n fun k => tset (σ k)).1
          (normalizeInit n fun k => tset (σ k)).2).1 r' = tset (σ i) from e1'] at this
      exact this.symm
    exact hincr.pairwiseDistinct r' r hr' hr e
  rw [v', v, hrr]

theorem foldl_add_congr (f g : ℕ → α) (n : ℕ) (h : ∀ i, i < n → f i = g i) :
    (List.range n).foldl (fun sum i => sum + f i) 0
      = (List.range n).foldl (fun sum i => sum + g i) 0 := by
  apply List.foldl_ext
  intro a i hi
  rw [h i (List.mem_range.mp hi)]

/-- The kernel sum of `ParzDens_2` over rearranged cases. -/
theorem kernelSum2_indexPerm (exp : α → α) (n : ℕ) (d0 d1 d0' d1' : ℕ → α) (var0 var1 x0 x1 : α)
    (σ : ℕ → ℕ) (hσ : IndexPerm n σ) (h0 : ∀ i, i < n → d0' i = d0 (σ i))
    (h1 : ∀ i, i < n → d1' i = d1 (σ i)) :
    kernelSum2 exp n d0' d1' var0 var1 x0 x1 = kernelSum2 exp n d0 d1 var0 var1 x0 x1 := by
  unfold kernelSum2
  rw [← foldl_add_indexPerm (fun i => exp (-0.5 * ((x0 - d0 i) * (x0 - d0 i) / var0
    + (x1 - d1 i) * (x1 - d1 i) / var1))) hσ]
  apply foldl_add_congr
  intro i hi
  rw [h0 i hi, h1 i hi]

/-- The kernel sum of `ParzDens_3` over rearranged cases. -/
theorem kernelSum3_indexPerm (exp : α → α) (n : ℕ) (d0 d1 d2 d0' d1' d2' : ℕ → α)
    (var0 var1 var2 x0 x1 x2 : α) (σ : ℕ → ℕ) (hσ : IndexPerm n σ)
    (h0 : ∀ i, i < n → d0' i = d0 (σ i)) (h1 : ∀ i, i < n → d1' i = d1 (σ i))
    (h2 : ∀ i, i < n → d2' i = d2 (σ i)) :
    (List.range n).foldl
      (fun sum i => sum + exp (-0.5 * ((x0 - d0' i) * (x0 - d0' i) / var0
        + (x1 - d1' i) * (x1 - d1' i) / var1 + (x2 - d2' i) * (x2 - d2' i) / var2))) 0
    = (List.range n).foldl
      (fun sum i => sum + exp (-0.5 * ((x0 - d0 i) * (x0 - d0 i) / var0
        + (x1 - d1 i) * (x1 - d1 i) / var1 + (x2 - d2 i) * (x2 - d2 i) / var2))) 0 := by
  rw [← foldl_add_indexPerm (fun i => exp (-0.5 * ((x0 - d0 i) * (x0 - d0 i) / var0
    + (x1 - d1 i) * (x1 - d1 i) / var1 + (x2 - d2 i) * (x2 - d2 i) / var2))) hσ]
  apply foldl_add_congr
  intro i hi
  rw [h0 i hi, h1 i hi, h2 i hi]

/-- C12. Under the sorter contract, for samples with pairwise distinct values and a
rearrangement `σ` of the case indices, normalising the rearranged sample gives the rearranged
normalised sample, `normalize(sample ∘ σ)[i] = normalize(sample)[σ i]`; hence rearranging the
cases of all variables alike leaves `ParzDens_2::density` on the exact path and
`ParzDens_3::density` unchanged. -/
theorem normalize_order_independent {B : Type} (exp sqrt inverse_normal_cdf : α → α)
    (qsortdsi : ℤ → ℤ → (ℕ → α) → (ℕ → ℕ) → (ℕ → α) × (ℕ → ℕ))
    (hsort : ∀ (n : ℕ) (d : ℕ → α) (s : ℕ → ℕ),
      SortedWithCompanion n d s (qsortdsi 0 ((n : ℤ) - 1) d s))
    (newBilinear : ℕ → (ℕ → α) → ℕ → (ℕ → α) → (ℕ → α) → ℤ → B)
    (evaluateBilinear : B → α → α → α) (mallocOk : Bool)
    (n : ℕ) (σ : ℕ → ℕ) (hσ : IndexPerm n σ) (tset0 tset1 tset2 : ℕ → α)
    (hd0 : PairwiseDistinct n tset0) (hd1 : PairwiseDistinct n tset1)
    (hd2 : PairwiseDistinct n tset2) (n_div : ℤ) :
    (∀ i, i < n → normalize inverse_normal_cdf qsortdsi n (fun k => tset0 (σ k)) i
      = normalize inverse_normal_cdf qsortdsi n tset0 (σ i)) ∧
    (n ≤ 100 ∨ mallocOk = false → ∀ x0 x1,
      (ParzDens_2.new exp sqrt inverse_normal_cdf qsortdsi newBilinear mallocOk n
          (fun k => tset0 (σ k)) (fun k => tset1 (σ k)) n_div).density exp evaluateBilinear x0 x1
        = (ParzDens_2.new exp sqrt inverse_normal_cdf qsortdsi newBilinear mallocOk n
          tset0 tset1 n_div).density exp evaluateBilinear x0 x1) ∧
    (∀ x0 x1 x2,
      (ParzDens_3.new sqrt inverse_normal_cdf qsortdsi n (fun k => tset0 (σ k))
          (fun k => tset1 (σ k)) (fun k => tset2 (σ k)) n_div).density exp x0 x1 x2
        = (ParzDens_3.new sqrt inverse_normal_cdf qsortdsi n tset0 tset1 tset2 n_div).density
            exp x0 x1 x2) := by
  have k0 := normalize_comp_perm inverse_normal_cdf qsortdsi hsort n tset0 hd0 σ hσ
  have k1 := normalize_comp_perm inverse_normal_cdf qsortdsi hsort n tset1 hd1 σ hσ
  have k2 := normalize_comp_perm inverse_normal_cdf qsortdsi hsort n tset2 hd2 σ hσ
  refine ⟨k0, ?_, ?_⟩
  · intro h x0 x1
    have b := ParzDens_2.new_exact_path exp sqrt inverse_normal_cdf qsortdsi newBilinear mallocOk
      n tset0 tset1 n_div h
    have b' := ParzDens_2.new_exact_path exp sqrt inverse_normal_cdf qsortdsi newBilinear
      mallocOk n (fun k => tset0 (σ k)) (fun k => tset1 (σ k)) n_div h
    obtain ⟨f1, f2, f3, f4, f5, f6⟩ := ParzDens_2.new_sets_fields exp sqrt inverse_normal_cdf
      qsortdsi newBilinear mallocOk n tset0 tset1 n_div
    obtain ⟨g1, g2, g3, g4, g5, g6⟩ := ParzDens_2.new_sets_fields exp sqrt inverse_normal_cdf
      qsortdsi newBilinear mallocOk n (fun k => tset0 (σ k)) (fun k => tset1 (σ k)) n_div
    unfold ParzDens_2.density
    rw [b, b']
    simp only
    rw [f1, f2, f3, f4, f5, f6, g1, g2, g3, g4, g5, g6,
      kernelSum2_indexPerm exp n _ _ _ _ _ _ x0 x1 σ hσ k0 k1]
  · intro x0 x1 x2
    unfold ParzDens_3.density ParzDens_3.new
    simp only
    rw [kernelSum3_indexPerm exp n _ _ _ _ _ _ _ _ _ x0 x1 x2 σ hσ k0 k1 k2]

theorem sample5_pairwiseDistinct : PairwiseDistinct 5 (sample5 : ℕ → ℝ) :=
  sample5_strictIncr.pairwiseDistinct

theorem rotate5_indexPerm : IndexPerm 5 (fun i => (i + 2) % 5) := by
  unfold IndexPerm
  decide

theorem normalize_order_independent_witness :
    (∀ i, i < 5 →
      normalize normalQuantile sortWithCompanion 5 (fun k => (sample5 ((k + 2) % 5) : ℝ)) i
        = normalize normalQuantile sortWithCompanion 5 sample5 ((i + 2) % 5)) ∧
    ((5 : ℕ) ≤ 100 ∨ true = false → ∀ x0 x1,
      (ParzDens_2.new Real.exp Real.sqrt normalQuantile sortWithCompanion
          (fun _ _ _ _ _ _ => ()) true 5
          (fun k => (sample5 ((k + 2) % 5) : ℝ)) (fun k => (sample5 ((k + 2) % 5) : ℝ))
          5).density Real.exp (fun _ _ _ => 0) x0 x1
        = (ParzDens_2.new Real.exp Real.sqrt normalQuantile sortWithCompanion
          (fun _ _ _ _ _ _ => ()) true 5 sample5 sample5 5).density Real.exp (fun _ _ _ => 0)
            x0 x1) ∧
    (∀ x0 x1 x2,
      (ParzDens_3.new Real.sqrt normalQuantile sortWithCompanion 5
          (fun k => (sample5 ((k + 2) % 5) : ℝ)) (fun k => (sample5 ((k + 2) % 5) : ℝ))
          (fun k => (sample5 ((k + 2) % 5) : ℝ)) 5).density Real.exp x0 x1 x2
        = (ParzDens_3.new Real.sqrt normalQuantile sortWithCompanion 5 sample5 sample5 sample5
            5).density Real.exp x0 x1 x2) :=
  normalize_order_independent Real.exp Real.sqrt normalQuantile sortWithCompanion
    (fun n d s => sortWithCompanion_spec n d s) (fun _ _ _ _ _ _ => ()) (fun _ _ _ => 0) true 5
    (fun i => (i + 2) % 5) rotate5_indexPerm sample5 sample5 sample5 sample5_pairwiseDistinct
    sample5_pairwiseDistinct sample5_pairwiseDistinct 5

/-! ## Splines on rearranged and on coinciding nodes -/

theorem rotate3_indexPerm : IndexPerm 3 (fun i => (i + 1) % 3) := by
  unfold IndexPerm
  decide

theorem CubicSpline.new_order_independent_witness :
    (∀ i, i < 3 →
      (CubicSpline.new sortWithCompanion 3 (fun i => (((i + 1) % 3 : ℕ) : ℚ))
          (fun i => (((i + 1) % 3 : ℕ) : ℚ) ^ 2)).x i = parabolaSpline.x i ∧
      (CubicSpline.new sortWithCompanion 3 (fun i => (((i + 1) % 3 : ℕ) : ℚ))
          (fun i => (((i + 1) % 3 : ℕ) : ℚ) ^ 2)).y i = parabolaSpline.y i ∧
      (CubicSpline.new sortWithCompanion 3 (fun i => (((i + 1) % 3 : ℕ) : ℚ))
          (fun i => (((i + 1) % 3 : ℕ) : ℚ) ^ 2)).y2 i = parabolaSpline.y2 i) ∧
    (∀ xpt, (CubicSpline.new sortWithCompanion 3 (fun i => (((i + 1) % 3 : ℕ) : ℚ))
          (fun i => (((i + 1) % 3 : ℕ) : ℚ) ^ 2)).evaluate xpt = parabolaSpline.evaluate xpt) ∧
    StrictIncr 3 parabolaSpline.x ∧
    (StrictIncr 3 (fun i : ℕ => (i : ℚ)) → ∀ i, i < 3 →
      parabolaSpline.x i = (i : ℚ) ∧ parabolaSpline.y i = (i : ℚ) ^ 2) :=
  CubicSpline.new_order_independent sortWithCompanion
    (fun m x y => sortWithCompanion_spec m x y) 3 (by decide) (fun i => (i : ℚ))
    (fun i => (i : ℚ) ^ 2) natNodes_strictIncr.pairwiseDistinct (fun i => (i + 1) % 3)
    rotate3_indexPerm

theorem dupSpline_sorted (i : ℕ) (hi : i + 1 < dupSpline.n) :
    dupSpline.x i ≤ dupSpline.x (i + 1) :=
  (sortWithCompanion_spec 3 (fun i => ([1, 0, 1].getD i 0 : ℚ))
    (fun i => ([5, 0, 7].getD i 0 : ℚ))).2 i hi

/-- On the nodes `(0,0), (1,5), (1,7)` the query 1 is bracketed by the two coinciding nodes. -/
theorem dupSpline_bracket : bracket dupSpline.x 1 0 (dupSpline.n - 1) = (1, 2) := by
  show bracket dupSpline.x 1 0 2 = (1, 2)
  rw [bracket, if_pos (by decide), if_neg (by decide)]
  exact bracket_done dupSpline.x 1 1 2 (by decide)

theorem CubicSpline.dist_positive_witness :
    dupSpline.x (bracket dupSpline.x 1 0 (dupSpline.n - 1)).1
      = dupSpline.x (bracket dupSpline.x 1 0 (dupSpline.n - 1)).2 ∧
    0 < dupSpline.dist 1 :=
  ⟨by rw [dupSpline_bracket]; decide,
    (CubicSpline.dist_positive dupSpline (by decide)
      dupSpline_sorted 1 (by decide) (by decide)).2.2.1⟩

end DataMining
